import Mathlib

/-!
Verification development for the API-Spec-Pruner repository.

The repository trims OpenAPI documents: it extracts a requested set of
paths/methods, computes the transitive closure of referenced components
(`shorten_api_spec.py`, `openai/shorten_api_spec_openai.py`), and detects and
breaks circular `$ref` cycles among schema components
(`google_gemini/openapi_circular_resolver.py`).

This file gives a shallow embedding of those functions and proves properties
about them.  Documents are modelled as finite trees (`Node`); Python dicts are
modelled as insertion-ordered association lists with update-in-place insert,
Python sets as duplicate-free lists; the source's recursion through the
semantic reference graph is modelled with an explicit fuel parameter, and
termination claims become fuel-stabilisation theorems.  All string operations
used by the source (`split`, `strip`, `lower`, `isdigit`, ordering) are
implemented structurally over character lists so that every definition
evaluates inside the kernel.
-/

namespace ApiSpecPruner

/-! ## Python string primitives -/

/-- `str.split(sep)` for a one-character separator, on character lists.
Python semantics: `"".split("/") == [""]`, `"a//b".split("/") == ["a","","b"]`. -/
def chSplit (sep : Char) : List Char → List (List Char)
  | [] => [[]]
  | c :: cs =>
      let rest := chSplit sep cs
      if c = sep then [] :: rest
      else
        match rest with
        | [] => [[c]]
        | r :: rs => (c :: r) :: rs

/-- `ref.split('/')` as used by the source on reference strings. -/
def pySplit (s : String) (sep : Char) : List String :=
  (chSplit sep s.data).map (fun l => ⟨l⟩)

/-- `str.strip(ch)`: remove leading and trailing occurrences of one character. -/
def chStrip (ch : Char) (l : List Char) : List Char :=
  ((l.dropWhile (fun c => c = ch)).reverse.dropWhile (fun c => c = ch)).reverse

/-- `ref_path.strip('/').split('/')`, as in `remove_ref`. -/
def pyStripSplit (s : String) : List String :=
  (chSplit '/' (chStrip '/' s.data)).map (fun l => ⟨l⟩)

/-- ASCII `str.lower()` on one character (the source lowercases HTTP method
names such as `"GET"`). -/
def chLower (c : Char) : Char :=
  if 65 ≤ c.toNat ∧ c.toNat ≤ 90 then Char.ofNat (c.toNat + 32) else c

/-- `str.lower()`. -/
def pyLower (s : String) : String := ⟨s.data.map chLower⟩

/-- `str.isdigit()` restricted to ASCII digits (the source only ever feeds it
decimal list indices produced by `str(i)`). Empty strings are not digits. -/
def pyIsDigit (s : String) : Bool :=
  !s.data.isEmpty && s.data.all (fun c => 48 ≤ c.toNat && c.toNat ≤ 57)

/-- `int(s)` on a digit string, accumulator form. -/
def chToNat : List Char → Nat → Nat
  | [], acc => acc
  | c :: cs, acc => chToNat cs (acc * 10 + (c.toNat - 48))

/-- `int(s)` on a digit string. -/
def pyToNat (s : String) : Nat := chToNat s.data 0

/-- Lexicographic `≤` on strings by code point, i.e. Python's string ordering
as used by `sorted`. -/
def chLe : List Char → List Char → Bool
  | [], _ => true
  | _ :: _, [] => false
  | a :: as, b :: bs => a.toNat < b.toNat || (a = b && chLe as bs)

/-- Python string comparison `a <= b` (code-point lexicographic). -/
def strLe (a b : String) : Bool := chLe a.data b.data

/-- `s.startswith(p)` on character lists. -/
def listStarts : List Char → List Char → Bool
  | _, [] => true
  | [], _ :: _ => false
  | c :: cs, p :: ps => c = p && listStarts cs ps

/-- `s.startswith(p)`. -/
def pyStarts (s p : String) : Bool := listStarts s.data p.data

/-! ## Document trees and Python containers

A parsed YAML/JSON document is a finite tree of mappings, sequences and
scalars.  The source only ever distinguishes string scalars (reference values
and comparisons against reference strings); all other scalars are collapsed
into `atom`. -/

/-- A node of a parsed specification document. -/
inductive Node where
  | str : String → Node
  | atom : Node
  | obj : List (String × Node) → Node
  | arr : List Node → Node

mutual

/-- Structural equality test on document nodes. -/
def nodeBeq : Node → Node → Bool
  | .str a, .str b => a = b
  | .atom, .atom => true
  | .obj a, .obj b => entriesBeq a b
  | .arr a, .arr b => itemsBeq a b
  | _, _ => false

/-- Structural equality test on mapping entry lists. -/
def entriesBeq : List (String × Node) → List (String × Node) → Bool
  | [], [] => true
  | (k, v) :: r, (k2, v2) :: r2 => k = k2 && nodeBeq v v2 && entriesBeq r r2
  | _, _ => false

/-- Structural equality test on node lists. -/
def itemsBeq : List Node → List Node → Bool
  | [], [] => true
  | v :: r, v2 :: r2 => nodeBeq v v2 && itemsBeq r r2
  | _, _ => false

end

mutual

theorem nodeBeq_iff : ∀ a b : Node, nodeBeq a b = true ↔ a = b
  | .str a, .str b => by simp [nodeBeq]
  | .str _, .atom | .str _, .obj _ | .str _, .arr _ => by simp [nodeBeq]
  | .atom, .str _ | .atom, .obj _ | .atom, .arr _ => by simp [nodeBeq]
  | .atom, .atom => by simp [nodeBeq]
  | .obj a, .obj b => by simp [nodeBeq, entriesBeq_iff a b]
  | .obj _, .str _ | .obj _, .atom | .obj _, .arr _ => by simp [nodeBeq]
  | .arr a, .arr b => by simp [nodeBeq, itemsBeq_iff a b]
  | .arr _, .str _ | .arr _, .atom | .arr _, .obj _ => by simp [nodeBeq]

theorem entriesBeq_iff : ∀ a b : List (String × Node), entriesBeq a b = true ↔ a = b
  | [], [] => by simp [entriesBeq]
  | [], _ :: _ | _ :: _, [] => by simp [entriesBeq]
  | (k, v) :: r, (k2, v2) :: r2 => by
      simp [entriesBeq, nodeBeq_iff v v2, entriesBeq_iff r r2, and_assoc]

theorem itemsBeq_iff : ∀ a b : List Node, itemsBeq a b = true ↔ a = b
  | [], [] => by simp [itemsBeq]
  | [], _ :: _ | _ :: _, [] => by simp [itemsBeq]
  | v :: r, v2 :: r2 => by simp [itemsBeq, nodeBeq_iff v v2, itemsBeq_iff r r2]

end

instance : DecidableEq Node := fun a b => decidable_of_iff _ (nodeBeq_iff a b)

/-- Python dict lookup `d[k]` / `d.get(k)`: the binding of the key, if any. -/
def lookupA {α : Type} : List (String × α) → String → Option α
  | [], _ => none
  | (k, v) :: rest, key => if k = key then some v else lookupA rest key

/-- Python dict assignment `d[k] = v`: update in place if the key is present
(keeping its position), otherwise append at the end. -/
def insertA {α : Type} : List (String × α) → String → α → List (String × α)
  | [], key, v => [(key, v)]
  | (k, w) :: rest, key, v =>
      if k = key then (k, v) :: rest else (k, w) :: insertA rest key v

/-- Python `set.add`: sets are modelled as duplicate-free lists.  (The source
only ever tests membership, or materialises the set with `list(...)`, whose
order Python leaves unspecified; we use insertion order.) -/
def insertS (l : List String) (s : String) : List String :=
  if s ∈ l then l else l ++ [s]

/-! ## The reference scanner of `find_refs_in_object`

`find_refs_in_object` in `shorten_api_spec.py` recurses into mapping values
and sequence elements and fires on every entry whose key is `"$ref"` and whose
value is a string.  The recursion is purely structural over the document tree,
so it is factored out here, parameterised by the state type and by the action
`hit` taken on each reference string. -/

mutual

/-- `find_refs_in_object(obj)`: dispatch on the node kind. -/
def scanNode {σ : Type} (hit : σ → String → σ) : σ → Node → σ
  | st, Node.obj entries => scanEntries hit st entries
  | st, Node.arr items => scanItems hit st items
  | st, _ => st

/-- The `for key, value in obj.items()` loop of `find_refs_in_object`:
a `$ref` key with a string value is a reference hit, anything else is
recursed into. -/
def scanEntries {σ : Type} (hit : σ → String → σ) : σ → List (String × Node) → σ
  | st, [] => st
  | st, (key, value) :: rest =>
      let st' :=
        if key = "$ref" then
          match value with
          | Node.str v => hit st v
          | _ => scanNode hit st value
        else scanNode hit st value
      scanEntries hit st' rest

/-- The `for item in obj` loop of `find_refs_in_object` on sequences. -/
def scanItems {σ : Type} (hit : σ → String → σ) : σ → List Node → σ
  | st, [] => st
  | st, item :: rest => scanItems hit (scanNode hit st item) rest

end

mutual

/-- All reference strings `find_refs_in_object` fires on inside a node, in
scan order. -/
def nodeRefs : Node → List String
  | Node.obj entries => entryRefs entries
  | Node.arr items => itemRefs items
  | _ => []

/-- Reference strings fired on inside a mapping's entries. -/
def entryRefs : List (String × Node) → List String
  | [] => []
  | (key, value) :: rest =>
      (if key = "$ref" then
        match value with
        | Node.str v => [v]
        | _ => nodeRefs value
      else nodeRefs value) ++ entryRefs rest

/-- Reference strings fired on inside a sequence's items. -/
def itemRefs : List Node → List String
  | [] => []
  | item :: rest => nodeRefs item ++ itemRefs rest

end

/-! ## `shorten_api_spec.py` — `collect_referenced_components`

The source keeps a mutable `processed_refs` set and a mutable
`referenced_components` dict closed over two mutually recursive helpers
`process_ref` and `find_refs_in_object`.  We thread that state explicitly and
bound the recursion through component bodies by a fuel parameter; the fuel
actually supplied (`collectFuel`) is proved sufficient below. -/

/-- `ref.split('/')`; `len(parts) >= 4 and parts[1] == 'components'` yields
the target `(component_type, component_name) = (parts[2], parts[3])`. -/
def refTarget (ref : String) : Option (String × String) :=
  match pySplit ref '/' with
  | _ :: p1 :: p2 :: p3 :: _ => if p1 = "components" then some (p2, p3) else none
  | _ => none

/-- `component_type in components and component_name in components[component_type]`,
returning `components[component_type][component_name]`.  A component section
that is not a mapping can never be indexed successfully by the source (string
indexing into a list or scalar raises), so it resolves nothing here. -/
def resolveRef (components : List (String × Node)) (ref : String) :
    Option (String × String × Node) :=
  match refTarget ref with
  | none => none
  | some (t, n) =>
      match lookupA components t with
      | some (Node.obj bucket) =>
          match lookupA bucket n with
          | some body => some (t, n, body)
          | none => none
      | _ => none

/-- The mutable state closed over by `process_ref` / `find_refs_in_object`:
the `processed_refs` set and the `referenced_components` dict of dicts. -/
structure CollectSt where
  processed : List String
  closure : List (String × List (String × Node))
deriving DecidableEq

/-- `referenced_components[t] = {}` if absent, then
`referenced_components[t][n] = b`. -/
def addComponent (cl : List (String × List (String × Node))) (t n : String)
    (b : Node) : List (String × List (String × Node)) :=
  insertA cl t (insertA ((lookupA cl t).getD []) n b)

/-- `process_ref(ref)`: skip if already processed, else mark processed,
resolve, store the body, and scan the body for nested references (which are
processed with one unit of fuel less).  Fuel thus bounds the nesting depth of
component bodies entered, which is at most the number of distinct reference
strings in the document; `collectFuel` below is proved sufficient. -/
def processRef (c : List (String × Node)) : Nat → CollectSt → String → CollectSt
  | fuel, st, ref =>
      if ref ∈ st.processed then st
      else
        let st1 : CollectSt := ⟨insertS st.processed ref, st.closure⟩
        match resolveRef c ref with
        | none => st1
        | some (t, n, body) =>
            let st2 : CollectSt := ⟨st1.processed, addComponent st1.closure t n body⟩
            match fuel with
            | 0 => st2
            | fuel' + 1 => scanNode (processRef c fuel') st2 body

/-- `find_refs_in_object(obj)` with the closure-building hit action. -/
def findRefs (c : List (String × Node)) (fuel : Nat) : CollectSt → Node → CollectSt :=
  scanNode (processRef c fuel)

/-- All reference strings in the entry subset and in all component bodies:
a superset of every reference string the collector can ever process after the
entry scan, used to size the fuel. -/
def collectUniverse (c : List (String × Node)) (extracted : List (String × Node)) :
    List String :=
  ((extracted.map (fun pm => nodeRefs pm.2)).flatten ++
    (c.map (fun tv => nodeRefs tv.2)).flatten).dedup

/-- Fuel sufficient for `collect_referenced_components` (proved below). -/
def collectFuel (c : List (String × Node)) (extracted : List (String × Node)) : Nat :=
  (collectUniverse c extracted).length + 1

/-- `api_spec.get('components', {})`.  (On a document whose `components` value
is not a mapping the source's subsequent `component_type in components` /
`components[component_type]` either fails or raises; modelled as the empty
mapping.) -/
def componentsOf (api_spec : Node) : List (String × Node) :=
  match api_spec with
  | Node.obj m =>
      match lookupA m "components" with
      | some (Node.obj c) => c
      | _ => []
  | _ => []

/-- The initial `referenced_components` dict with its four empty type buckets. -/
def initialClosure : List (String × List (String × Node)) :=
  [("schemas", []), ("parameters", []), ("responses", []), ("requestBodies", [])]

/-- The main loop of `collect_referenced_components` before cleanup:
`for path, methods in extracted_paths.items(): find_refs_in_object(methods)`,
at a given fuel. -/
def collectRefsFuel (c : List (String × Node)) (extracted : List (String × Node))
    (fuel : Nat) : CollectSt :=
  extracted.foldl (fun st pm => findRefs c fuel st pm.2) ⟨[], initialClosure⟩

/-- Insertion into a list sorted by `strLe` on keys. -/
def insertSorted (p : String × Node) : List (String × Node) → List (String × Node)
  | [] => [p]
  | q :: rest => if strLe p.1 q.1 then p :: q :: rest else q :: insertSorted p rest

/-- `dict(sorted(bucket.items()))`: Python's `sorted` on `(key, value)` pairs
with pairwise-distinct keys orders them by key; modelled as insertion sort,
which produces the same (unique) key-sorted permutation. -/
def sortAList : List (String × Node) → List (String × Node)
  | [] => []
  | p :: rest => insertSorted p (sortAList rest)

/-- The cleanup loop of `collect_referenced_components`: drop empty type
buckets, sort the others by component name. -/
def cleanupClosure (cl : List (String × List (String × Node))) :
    List (String × List (String × Node)) :=
  (cl.filter (fun tb => !tb.2.isEmpty)).map (fun tb => (tb.1, sortAList tb.2))

/-- `collect_referenced_components(api_spec, extracted_paths)` from
`shorten_api_spec.py` (identically duplicated in
`openai/shorten_api_spec_openai.py`). -/
def collect_referenced_components (api_spec : Node)
    (extracted : List (String × Node)) : List (String × List (String × Node)) :=
  let c := componentsOf api_spec
  cleanupClosure (collectRefsFuel c extracted (collectFuel c extracted)).closure

/-! ## `openai/shorten_api_spec_openai.py` — `extract_paths` -/

/-- The `for method in methods` loop of `extract_paths`, with the `path_data`
accumulator threaded explicitly: lowercase the requested method and copy it
when present under the path.  (Membership of a method name in a non-mapping
path entry either fails or raises on the subsequent indexing in the source;
modelled as no match.) -/
def extractMethodsAux (pathVal : Node) : List String → List (String × Node) →
    List (String × Node)
  | [], pd => pd
  | m :: rest, pd =>
      extractMethodsAux pathVal rest
        (match pathVal with
         | Node.obj pv =>
             match lookupA pv (pyLower m) with
             | some op => insertA pd (pyLower m) op
             | none => pd
         | _ => pd)

/-- The `path_data` a path contributes: the method loop run from the empty
dict. -/
def extractMethods (pathVal : Node) (methods : List String) : List (String × Node) :=
  extractMethodsAux pathVal methods []

/-- The `for path, methods in required_paths_methods.items()` loop of
`extract_paths`, with the `extracted_paths` accumulator threaded explicitly:
a requested path absent from the source is skipped, and a present path is
added only if at least one requested method matched (`if path_data:`). -/
def extractPathsAux (pathsD : List (String × Node)) :
    List (String × List String) → List (String × Node) → List (String × Node)
  | [], acc => acc
  | (path, methods) :: rest, acc =>
      extractPathsAux pathsD rest
        (match lookupA pathsD path with
         | some pathVal =>
             if (extractMethods pathVal methods).isEmpty then acc
             else insertA acc path (Node.obj (extractMethods pathVal methods))
         | none => acc)

/-- `extract_paths(api_spec, required_paths_methods)`: copy only requested
paths present in the source and only requested methods present under them,
omitting a path entirely when no method matched.  `api_spec['paths']` raises
unless the document is a mapping with a mapping under `paths`; that error case
is `none`. -/
def extract_paths (api_spec : Node) (required : List (String × List String)) :
    Option (List (String × Node)) :=
  match api_spec with
  | Node.obj m =>
      match lookupA m "paths" with
      | some (Node.obj pathsD) => some (extractPathsAux pathsD required [])
      | _ => none
  | _ => none

/-! ## `google_gemini/openapi_circular_resolver.py` — reference graph -/

/-- `spec.get("components", {}).get("schemas", {})`: the schema mapping of a
document (empty when the chain is absent or not mapping-shaped, in which case
the source's later indexing into it raises or misses). -/
def schemasOf (doc : Node) : List (String × Node) :=
  match doc with
  | Node.obj m =>
      match lookupA m "components" with
      | some (Node.obj cm) =>
          match lookupA cm "schemas" with
          | some (Node.obj sm) => sm
          | _ => []
      | _ => []
  | _ => []

/-- The `context` default of `build_reference_graph`. -/
def schemaContext : String := "#/components/schemas/"

/-- The key `f"{src} -> {dst}"` under which a reference edge's locations are
stored. -/
def edgeKey (src dst : String) : String := src ++ " -> " ++ dst

/-- The state built by `build_reference_graph`: the `defaultdict(set)` pair
`graph` (schema name → set of referenced schema names) and `locations`
(edge key → set of structural paths). -/
structure GraphSt where
  graph : List (String × List String)
  locations : List (String × List String)
deriving DecidableEq

/-- `defaultdict(set)` access plus `add`: create the bucket if absent, insert
the element into the set. -/
def addToBucket (m : List (String × List String)) (k v : String) :
    List (String × List String) :=
  insertA m k (insertS ((lookupA m k).getD []) v)

/-- `str(i)` for list indices.  The recursion over `n / 10` is bounded by a
fuel that is always sufficient (`n + 1` strictly exceeds the digit count). -/
def natToCharsAux : Nat → Nat → List Char
  | _, 0 => ['0']
  | 0, _ => []
  | fuel + 1, n =>
      if n < 10 then [Char.ofNat (48 + n)]
      else natToCharsAux fuel (n / 10) ++ [Char.ofNat (48 + n % 10)]

/-- `str(i)` for list indices. -/
def natToStr (n : Nat) : String := ⟨natToCharsAux (n + 1) n⟩

mutual

/-- `extract_refs(obj, current_schema, path)`: on a mapping, record an edge
and its location when the mapping carries a `$ref` string starting with the
schema context (the `if current_schema:` guard is Python truthiness, i.e. a
non-empty name), then recurse into all values; on a sequence, recurse into
all items with the index appended to the path. -/
def extractRefs (cur : String) : GraphSt → Node → String → GraphSt
  | st, Node.obj entries, path =>
      let st1 :=
        match lookupA entries "$ref" with
        | some (Node.str s) =>
            if pyStarts s schemaContext then
              let refName : String := ⟨s.data.drop schemaContext.data.length⟩
              if cur ≠ "" then
                { graph := addToBucket st.graph cur refName,
                  locations := addToBucket st.locations (edgeKey cur refName) path }
              else st
            else st
        | _ => st
      extractRefsEntries cur st1 entries path
  | st, Node.arr items, path => extractRefsItems cur st items path 0
  | st, _, _ => st

/-- The `for key, value in list(obj.items())` loop of `extract_refs`, with
`new_path = f"{path}/{key}" if path else key`. -/
def extractRefsEntries (cur : String) : GraphSt → List (String × Node) → String → GraphSt
  | st, [], _ => st
  | st, (key, value) :: rest, path =>
      let newPath := if path = "" then key else path ++ "/" ++ key
      extractRefsEntries cur (extractRefs cur st value newPath) rest path

/-- The `for i, item in enumerate(obj)` loop of `extract_refs`. -/
def extractRefsItems (cur : String) : GraphSt → List Node → String → Nat → GraphSt
  | st, [], _, _ => st
  | st, item :: rest, path, i =>
      let newPath := if path = "" then natToStr i else path ++ "/" ++ natToStr i
      extractRefsItems cur (extractRefs cur st item newPath) rest path (i + 1)

end

/-- `build_reference_graph(spec)`: run `extract_refs` over every schema body
with the schema's name as current schema and the empty root path. -/
def build_reference_graph (spec : Node) : GraphSt :=
  (schemasOf spec).foldl (fun st sn => extractRefs sn.1 st sn.2 "") ⟨[], []⟩

/-! ## `detect_cycles` -/

/-- The list-loop of `dfs` over a node's neighbours, with the per-neighbour
visit action supplied as a function (the visit closure captures the copies of
`visited` and `path` that Python hands to every recursive call). -/
def dfsList (visit : String → List (List String) → List (List String)) :
    List String → List (List String) → List (List String)
  | [], cycles => cycles
  | nb :: rest, cycles => dfsList visit rest (visit nb cycles)

/-- `dfs(node, visited, path)` of `detect_cycles`, threading the shared
`cycles` accumulator.  A node already on the current path closes a cycle
`path[path.index(node):] + [node]`; a node already visited is skipped (since
every call receives `visited.copy()`, `visited` always equals the set of
`path`, so this branch is unreachable after the path check); otherwise the
node is added to both and all neighbours are explored.  Fuel decreases once
per node entered; the fuel supplied by `detect_cycles` is proved sufficient
below. -/
def dfsVisit (graph : List (String × List String)) :
    Nat → String → List String → List String → List (List String) → List (List String)
  | fuel, node, visited, path, cycles =>
      if node ∈ path then cycles ++ [path.drop (path.indexOf node) ++ [node]]
      else if node ∈ visited then cycles
      else
        match fuel with
        | 0 => cycles
        | fuel' + 1 =>
            dfsList
              (fun nb cyc =>
                dfsVisit graph fuel' nb (insertS visited node) (path ++ [node]) cyc)
              ((lookupA graph node).getD []) cycles

/-- The final deduplication loop of `detect_cycles`: keep the first occurrence
of every literal node sequence. -/
def dedupCycles (cycles : List (List String)) : List (List String) :=
  (cycles.foldl
    (fun (acc : List (List String) × List (List String)) cycle =>
      if cycle ∈ acc.2 then acc else (acc.1 ++ [cycle], cycle :: acc.2))
    ([], [])).1

/-- Every node the DFS can ever stand on: the graph's keys and all recorded
neighbours.  The current path is always a duplicate-free sublist of this
universe, which bounds the recursion depth. -/
def dfsUniverse (graph : List (String × List String)) : List String :=
  (graph.map (fun p => p.1 :: p.2)).flatten.dedup

/-- Fuel sufficient for `detect_cycles` (proved below). -/
def dfsFuel (graph : List (String × List String)) : Nat :=
  (dfsUniverse graph).length + 1

/-- `detect_cycles(graph)` at a given fuel: DFS from every node of the graph
in order, then deduplicate literally recorded cycles. -/
def detectCyclesFuel (graph : List (String × List String)) (fuel : Nat) :
    List (List String) :=
  dedupCycles (graph.foldl (fun cycles p => dfsVisit graph fuel p.1 [] [] cycles) [])

/-- `detect_cycles(graph)`. -/
def detect_cycles (graph : List (String × List String)) : List (List String) :=
  detectCyclesFuel graph (dfsFuel graph)

/-! ## `find_breaking_points` -/

/-- One breaking-point decision record. -/
structure BreakPoint where
  cycle : List String
  breakEdge : String × String
  referenceCount : Nat
  locations : List String
deriving DecidableEq

/-- Generic association list lookup for pair keys (`edge_counts` is keyed by
edges). -/
def lookupE {α : Type} : List ((String × String) × α) → String × String → Option α
  | [], _ => none
  | (k, v) :: rest, key => if k = key then some v else lookupE rest key

/-- Python dict assignment for pair keys. -/
def insertE {α : Type} : List ((String × String) × α) → String × String → α →
    List ((String × String) × α)
  | [], key, v => [(key, v)]
  | (k, w) :: rest, key, v =>
      if k = key then (k, v) :: rest else (k, w) :: insertE rest key v

/-- The consecutive edge pairs `(cycle[i], cycle[i+1])` of a cycle. -/
def cycleEdges (cycle : List String) : List (String × String) :=
  cycle.zip cycle.tail

/-- The `edge_counts` dict: each cycle edge mapped to
`len(locations.get(f"{src} -> {dst}", set()))`. -/
def edgeCounts (edges : List (String × String)) (locations : List (String × List String)) :
    List ((String × String) × Nat) :=
  edges.foldl
    (fun ec edge =>
      insertE ec edge ((lookupA locations (edgeKey edge.1 edge.2)).getD []).length)
    []

/-- `min(edge_counts.items(), key=lambda x: x[1])`: Python's `min` keeps the
first element attaining the minimum (it replaces only on strict decrease). -/
def minByCount : List ((String × String) × Nat) → Option ((String × String) × Nat)
  | [] => none
  | e :: rest => some (rest.foldl (fun best x => if x.2 < best.2 then x else best) e)

/-- The loop body of `find_breaking_points` for one cycle: build the cycle's
`edge_counts`, and if it is non-empty (`if edge_counts:`) emit the decision
record for the first minimum-count edge. -/
def perCycleBp (cycle : List String) (locations : List (String × List String)) :
    List BreakPoint :=
  match minByCount (edgeCounts (cycleEdges cycle) locations) with
  | some (minEdge, cnt) =>
      [{ cycle := cycle, breakEdge := minEdge, referenceCount := cnt,
         locations := (lookupA locations (edgeKey minEdge.1 minEdge.2)).getD [] }]
  | none => []

/-- `find_breaking_points(cycles, locations)`. -/
def find_breaking_points (cycles : List (List String))
    (locations : List (String × List String)) : List BreakPoint :=
  cycles.foldl (fun bps cycle => bps ++ perCycleBp cycle locations) []

/-! ## `remove_circular_references` and `remove_ref` -/

/-- The inert placeholder object substituted for a removed reference. -/
def placeholderFor (dst : String) : Node :=
  Node.obj
    [("x-removed-circular-ref", Node.str ("#/components/schemas/" ++ dst)),
     ("type", Node.str "object"),
     ("description", Node.str ("Circular reference to " ++ dst ++ " was removed"))]

/-- The leaf test of `remove_ref`:
`isinstance(x, dict) and "$ref" in x and x["$ref"] == f"#/components/schemas/{dst}"`.
Note that the source only requires the `$ref` key to be present with the
expected value; other keys may coexist. -/
def leafMatches (x : Node) (dst : String) : Bool :=
  match x with
  | Node.obj m =>
      match lookupA m "$ref" with
      | some v => v = Node.str ("#/components/schemas/" ++ dst)
      | none => false
  | _ => false

/-- The navigation-and-rewrite of `remove_ref` over the split path parts,
rendered functionally: `some n'` is the in-place mutation having returned
`True`, `none` is any of the source's `return False` exits (missing key,
index out of range, digit segment against a mapping, non-digit segment
against a sequence, or non-matching leaf).  A digit segment is converted with
`int(...)` and can only index a sequence; a non-digit segment can only index
a mapping. -/
def removeRefParts (dst : String) : Node → List String → Option Node
  | current, [lastKey] =>
      if pyIsDigit lastKey then
        match current with
        | Node.arr items =>
            match items[pyToNat lastKey]? with
            | some child =>
                if leafMatches child dst then
                  some (Node.arr (items.set (pyToNat lastKey) (placeholderFor dst)))
                else none
            | none => none
        | _ => none
      else
        match current with
        | Node.obj m =>
            match lookupA m lastKey with
            | some child =>
                if leafMatches child dst then
                  some (Node.obj (insertA m lastKey (placeholderFor dst)))
                else none
            | none => none
        | _ => none
  | current, key :: rest =>
      if pyIsDigit key then
        match current with
        | Node.arr items =>
            match items[pyToNat key]? with
            | some child =>
                match removeRefParts dst child rest with
                | some child' => some (Node.arr (items.set (pyToNat key) child'))
                | none => none
            | none => none
        | _ => none
      else
        match current with
        | Node.obj m =>
            match lookupA m key with
            | some child =>
                match removeRefParts dst child rest with
                | some child' => some (Node.obj (insertA m key child'))
                | none => none
            | none => none
        | _ => none
  | _, [] => none

/-- `remove_ref(obj, src_schema, dst_schema, ref_path)`: `False` immediately
on a falsy (empty) path, else strip and split the path and walk it.  The
`src_schema` argument is only used by the source in an error message.  The
source's `try/except` can never fire on in-range navigation, every failure
mode returns `False` explicitly. -/
def remove_ref (obj : Node) (src dst : String) (ref_path : String) : Option Node :=
  if ref_path = "" then none
  else removeRefParts dst obj (pyStripSplit ref_path)

/-- One removed-reference audit record. -/
structure RemovedRef where
  source_schema : String
  target_schema : String
  path : String
deriving DecidableEq

/-- Write back a schema body at `result["components"]["schemas"][src]`
(the in-place mutation of the aliased sub-dict, rendered functionally).
A document without that mapping chain is returned unchanged: in the source,
`schemas` would then be a detached `{}` and `schemas[src_schema]` raises
before any mutation. -/
def setSchema (doc : Node) (src : String) (newBody : Node) : Node :=
  match doc with
  | Node.obj m =>
      match lookupA m "components" with
      | some (Node.obj cm) =>
          match lookupA cm "schemas" with
          | some (Node.obj sm) =>
              Node.obj (insertA m "components"
                (Node.obj (insertA cm "schemas" (Node.obj (insertA sm src newBody)))))
          | _ => doc
      | _ => doc
  | _ => doc

/-- The `for location in locations` loop of `remove_circular_references`:
apply `remove_ref(schemas[src_schema], ...)` for each recorded location,
logging a `RemovedRef` on success.  (Breaking points produced by the pipeline
always name schemas present in the document; a missing source schema, which
raises in the source, is modelled as a skip.) -/
def removeAtLocations (doc : Node) (src dst : String) (locs : List String)
    (removed : List RemovedRef) : Node × List RemovedRef :=
  locs.foldl
    (fun acc location =>
      match lookupA (schemasOf acc.1) src with
      | some body =>
          match remove_ref body src dst location with
          | some body' => (setSchema acc.1 src body', acc.2 ++ [⟨src, dst, location⟩])
          | none => acc
      | none => acc)
    (doc, removed)

/-- `copy.deepcopy` under value semantics is the identity on the document
value; the store-level model below (`HeapModel`) accounts for what the copy
buys: freshly allocated cells disjoint from the caller's. -/
def deepcopy (n : Node) : Node := n

/-- `remove_circular_references(spec, breaking_points)`: rewrite the deep copy
at every breaking point's recorded locations and return it with the audit
log; the pure value of the caller's document is untouched by construction. -/
def remove_circular_references (spec : Node) (bps : List BreakPoint) :
    Node × List RemovedRef :=
  bps.foldl
    (fun acc point =>
      removeAtLocations acc.1 point.breakEdge.1 point.breakEdge.2 point.locations acc.2)
    (deepcopy spec, [])

/-! ## Basic lemmas about the Python container models -/

theorem lookupA_mem {α : Type} {l : List (String × α)} {k : String} {v : α}
    (h : lookupA l k = some v) : (k, v) ∈ l := by
  induction l with
  | nil => simp [lookupA] at h
  | cons p rest ih =>
      obtain ⟨k2, v2⟩ := p
      by_cases hk : k2 = k
      · subst hk
        simp [lookupA] at h
        subst h
        exact List.mem_cons_self _ _
      · simp [lookupA, hk] at h
        exact List.mem_cons_of_mem _ (ih h)

theorem lookupA_insertA {α : Type} (l : List (String × α)) (k : String) (v : α)
    (k2 : String) :
    lookupA (insertA l k v) k2 = if k = k2 then some v else lookupA l k2 := by
  induction l with
  | nil => simp [insertA, lookupA]
  | cons p rest ih =>
      obtain ⟨k3, v3⟩ := p
      by_cases h3 : k3 = k
      · subst h3
        by_cases h2 : k3 = k2 <;> simp [insertA, lookupA, h2]
      · by_cases h2 : k3 = k2
        · subst h2
          have hne : ¬ k3 = k := h3
          have hne2 : ¬ k = k3 := fun h => hne h.symm
          simp [insertA, hne, lookupA, hne2]
        · simp [insertA, h3, lookupA, h2, ih]

theorem mem_insertA {α : Type} {l : List (String × α)} {k : String} {v : α}
    {p : String × α} (h : p ∈ insertA l k v) : p ∈ l ∨ p = (k, v) := by
  induction l with
  | nil => simp [insertA] at h; simp [h]
  | cons q rest ih =>
      obtain ⟨k3, v3⟩ := q
      by_cases h3 : k3 = k
      · subst h3
        simp [insertA] at h
        rcases h with h | h
        · right; simp [h]
        · left; exact List.mem_cons_of_mem _ h
      · simp [insertA, h3] at h
        rcases h with h | h
        · left; simp [h]
        · rcases ih h with h | h
          · left; exact List.mem_cons_of_mem _ h
          · right; exact h

theorem keys_insertA_of_mem {α : Type} {l : List (String × α)} {k : String} (v : α)
    (h : k ∈ l.map Prod.fst) : (insertA l k v).map Prod.fst = l.map Prod.fst := by
  induction l with
  | nil => simp at h
  | cons q rest ih =>
      obtain ⟨k3, v3⟩ := q
      by_cases h3 : k3 = k
      · subst h3; simp [insertA]
      · rw [List.map_cons] at h
        rcases List.mem_cons.mp h with h | h
        · exact absurd h.symm h3
        · simp [insertA, h3, ih h]

theorem keys_insertA_of_not_mem {α : Type} {l : List (String × α)} {k : String} (v : α)
    (h : k ∉ l.map Prod.fst) :
    (insertA l k v).map Prod.fst = l.map Prod.fst ++ [k] := by
  induction l with
  | nil => simp [insertA]
  | cons q rest ih =>
      obtain ⟨k3, v3⟩ := q
      rw [List.map_cons] at h
      have h1 : ¬ (k3, v3).1 = k := fun hx => h (by simp [hx.symm])
      have h2 : k ∉ rest.map Prod.fst := fun hx => h (List.mem_cons_of_mem _ hx)
      have h3 : ¬ k3 = k := h1
      simp [insertA, h3, ih h2]

theorem nodup_keys_insertA {α : Type} {l : List (String × α)} {k : String} {v : α}
    (h : (l.map Prod.fst).Nodup) : ((insertA l k v).map Prod.fst).Nodup := by
  by_cases hk : k ∈ l.map Prod.fst
  · rw [keys_insertA_of_mem v hk]; exact h
  · rw [keys_insertA_of_not_mem v hk]
    refine List.Nodup.append h (by simp) ?_
    intro x hx hx2
    rcases List.mem_singleton.mp hx2 with rfl
    exact hk hx

theorem mem_insertS {x s : String} {l : List String} :
    x ∈ insertS l s ↔ x ∈ l ∨ x = s := by
  unfold insertS
  by_cases h : s ∈ l
  · simp [h]
    intro hx
    subst hx
    exact h
  · simp [h]

theorem insertS_subset {l : List String} {s : String} : l ⊆ insertS l s :=
  fun _ hx => mem_insertS.mpr (Or.inl hx)

/-- Number of elements of `U` not yet in `l`: the measure that bounds the
remaining recursion of the fueled traversals. -/
def countNotIn (U l : List String) : Nat :=
  (U.filter (fun r => decide (r ∉ l))).length

theorem countNotIn_le_length (U l : List String) : countNotIn U l ≤ U.length :=
  List.length_filter_le _ _

theorem countNotIn_cons (u : String) (rest l : List String) :
    countNotIn (u :: rest) l = countNotIn rest l + (if u ∈ l then 0 else 1) := by
  by_cases hu : u ∈ l <;> simp [countNotIn, List.filter_cons, hu] <;> omega

theorem countNotIn_mono {l l2 : List String} (U : List String) (h : l ⊆ l2) :
    countNotIn U l2 ≤ countNotIn U l := by
  induction U with
  | nil => simp [countNotIn]
  | cons u rest ih =>
      rw [countNotIn_cons, countNotIn_cons]
      by_cases hu : u ∈ l
      · have hu2 : u ∈ l2 := h hu
        simp [hu, hu2]
        omega
      · by_cases hu2 : u ∈ l2 <;> simp [hu, hu2] <;> omega

theorem countNotIn_lt {U l l2 : List String} {x : String} (hxU : x ∈ U) (hxl : x ∉ l)
    (h : ∀ y, y ∈ l2 ↔ y ∈ l ∨ y = x) : countNotIn U l2 < countNotIn U l := by
  induction U with
  | nil => simp at hxU
  | cons u rest ih =>
      have hsub : l ⊆ l2 := fun y hy => (h y).mpr (Or.inl hy)
      have hmono := countNotIn_mono rest hsub
      rw [countNotIn_cons, countNotIn_cons]
      rcases List.mem_cons.mp hxU with hx | hx
      · subst hx
        have hu2 : x ∈ l2 := (h x).mpr (Or.inr rfl)
        simp [hxl, hu2]
        omega
      · have hlt := ih hx
        by_cases hu : u ∈ l
        · have hu2 : u ∈ l2 := hsub hu
          simp [hu, hu2]
          omega
        · by_cases hu2 : u ∈ l2 <;> simp [hu, hu2] <;> omega

/-! ## Correctness of the sorting model -/

theorem chEq_of_toNat (a b : Char) (h : a.toNat = b.toNat) : a = b := by
  apply Char.ext
  apply UInt32.ext
  simpa [Char.toNat] using h

theorem chLe_total : ∀ a b : List Char, chLe a b = true ∨ chLe b a = true
  | [], _ => Or.inl (by simp [chLe])
  | _ :: _, [] => Or.inr (by simp [chLe])
  | a :: as, b :: bs => by
      rcases Nat.lt_trichotomy a.toNat b.toNat with h | h | h
      · exact Or.inl (by simp [chLe, h])
      · have hab : a = b := chEq_of_toNat a b h
        subst hab
        rcases chLe_total as bs with h2 | h2
        · exact Or.inl (by simp [chLe, h2])
        · exact Or.inr (by simp [chLe, h2])
      · exact Or.inr (by simp [chLe, h])

theorem chLe_trans : ∀ a b c : List Char,
    chLe a b = true → chLe b c = true → chLe a c = true
  | [], _, _, _, _ => by simp [chLe]
  | _ :: _, [], _, h, _ => by simp [chLe] at h
  | _ :: _, _ :: _, [], _, h => by simp [chLe] at h
  | a :: as, b :: bs, c :: cs, h1, h2 => by
      simp [chLe] at h1 h2 ⊢
      rcases h1 with h1 | ⟨hab, h1⟩
      · rcases h2 with h2 | ⟨hbc, h2⟩
        · exact Or.inl (Nat.lt_trans h1 h2)
        · subst hbc
          exact Or.inl h1
      · subst hab
        rcases h2 with h2 | ⟨hbc, h2⟩
        · exact Or.inl h2
        · subst hbc
          exact Or.inr ⟨rfl, chLe_trans as bs cs h1 h2⟩

theorem strLe_total (a b : String) : strLe a b = true ∨ strLe b a = true :=
  chLe_total a.data b.data

theorem strLe_trans {a b c : String} (h1 : strLe a b = true) (h2 : strLe b c = true) :
    strLe a c = true :=
  chLe_trans a.data b.data c.data h1 h2

/-- The ordering relation used for bucket sorting: keys ascending. -/
def keyLe (p q : String × Node) : Prop := strLe p.1 q.1 = true

theorem insertSorted_perm (p : String × Node) (l : List (String × Node)) :
    (insertSorted p l).Perm (p :: l) := by
  induction l with
  | nil => simp [insertSorted]
  | cons q rest ih =>
      by_cases h : strLe p.1 q.1
      · simp [insertSorted, h]
      · simp [insertSorted, h]
        exact ((ih.cons q).trans (List.Perm.swap p q rest))

theorem mem_insertSorted {p q : String × Node} {l : List (String × Node)} :
    q ∈ insertSorted p l ↔ q = p ∨ q ∈ l := by
  rw [(insertSorted_perm p l).mem_iff]
  simp

theorem pairwise_insertSorted (p : String × Node) (l : List (String × Node))
    (h : l.Pairwise keyLe) : (insertSorted p l).Pairwise keyLe := by
  induction l with
  | nil => simp [insertSorted, keyLe]
  | cons q rest ih =>
      rcases List.pairwise_cons.mp h with ⟨hq, hrest⟩
      by_cases hle : strLe p.1 q.1
      · simp only [insertSorted, hle, if_pos]
        refine List.pairwise_cons.mpr ⟨?_, h⟩
        intro x hx
        rcases List.mem_cons.mp hx with rfl | hx
        · exact hle
        · exact strLe_trans hle (hq x hx)
      · simp only [insertSorted, hle, if_neg, Bool.not_eq_true]
        refine List.pairwise_cons.mpr ⟨?_, ih hrest⟩
        intro x hx
        rcases mem_insertSorted.mp hx with rfl | hx
        · rcases strLe_total x.1 q.1 with h2 | h2
          · exact absurd h2 hle
          · exact h2
        · exact hq x hx

theorem sortAList_perm (l : List (String × Node)) : (sortAList l).Perm l := by
  induction l with
  | nil => simp [sortAList]
  | cons p rest ih =>
      exact (insertSorted_perm p (sortAList rest)).trans (ih.cons p)

theorem pairwise_sortAList (l : List (String × Node)) :
    (sortAList l).Pairwise keyLe := by
  induction l with
  | nil => simp [sortAList]
  | cons p rest ih => exact pairwise_insertSorted p (sortAList rest) ih

/-! ## Breaking-point selection (C3) -/

/-- The number of recorded locations backing an edge,
`len(locations.get(f"{src} -> {dst}", set()))`. -/
def edgeCost (locations : List (String × List String)) (e : String × String) : Nat :=
  ((lookupA locations (edgeKey e.1 e.2)).getD []).length

theorem foldl_min_spec (rest : List ((String × String) × Nat))
    (e m : (String × String) × Nat)
    (hm : rest.foldl (fun best x => if x.2 < best.2 then x else best) e = m) :
    m ∈ e :: rest ∧ (∀ x ∈ e :: rest, m.2 ≤ x.2) ∧
    ∃ pre post, e :: rest = pre ++ m :: post ∧ ∀ x ∈ pre, m.2 < x.2 := by
  induction rest generalizing e with
  | nil =>
      subst hm
      exact ⟨by simp, by simp, [], [], by simp, by simp⟩
  | cons x rest2 ih =>
      rw [List.foldl_cons] at hm
      by_cases hx : x.2 < e.2
      · rw [if_pos hx] at hm
        rcases ih x hm with ⟨hmem, hmin, pre2, post2, hdec, hpre⟩
        refine ⟨?_, ?_, e :: pre2, post2, ?_, ?_⟩
        · rcases List.mem_cons.mp hmem with rfl | hmem2
          · exact List.mem_cons_of_mem _ (List.mem_cons_self _ _)
          · exact List.mem_cons_of_mem _ (List.mem_cons_of_mem _ hmem2)
        · intro y hy
          rcases List.mem_cons.mp hy with rfl | hy2
          · have := hmin x (List.mem_cons_self _ _)
            omega
          · exact hmin y hy2
        · rw [List.cons_append, hdec]
        · intro y hy
          rcases List.mem_cons.mp hy with rfl | hy2
          · have := hmin x (List.mem_cons_self _ _)
            omega
          · exact hpre y hy2
      · rw [if_neg hx] at hm
        rcases ih e hm with ⟨hmem, hmin, pre2, post2, hdec, hpre⟩
        have hcover : ∀ y ∈ e :: x :: rest2, m.2 ≤ y.2 := by
          intro y hy
          rcases List.mem_cons.mp hy with rfl | hy2
          · exact hmin y (List.mem_cons_self _ _)
          · rcases List.mem_cons.mp hy2 with rfl | hy3
            · have := hmin e (List.mem_cons_self _ _)
              omega
            · exact hmin y (List.mem_cons_of_mem _ hy3)
        refine ⟨?_, hcover, ?_⟩
        · rcases List.mem_cons.mp hmem with rfl | hmem2
          · exact List.mem_cons_self _ _
          · exact List.mem_cons_of_mem _ (List.mem_cons_of_mem _ hmem2)
        · cases pre2 with
          | nil =>
              have he : e = m := by simpa using congrArg (fun l => l.headI) hdec
              refine ⟨[], x :: rest2, by simp [he], by simp⟩
          | cons p0 pre3 =>
              rw [List.cons_append] at hdec
              have he : e = p0 := (List.cons_eq_cons.mp hdec).1
              have hrest : rest2 = pre3 ++ m :: post2 := (List.cons_eq_cons.mp hdec).2
              have hep : m.2 < p0.2 := hpre p0 (List.mem_cons_self _ _)
              have hem : m.2 < e.2 := by rw [he]; exact hep
              refine ⟨e :: x :: pre3, post2, ?_, ?_⟩
              · rw [List.cons_append, List.cons_append, hrest]
              · intro y hy
                rcases List.mem_cons.mp hy with rfl | hy2
                · exact hem
                · rcases List.mem_cons.mp hy2 with rfl | hy3
                  · omega
                  · exact hpre y (List.mem_cons_of_mem _ hy3)

theorem lookupE_append_none {α : Type} {a : List ((String × String) × α)}
    (b : List ((String × String) × α)) {k : String × String}
    (h : lookupE a k = none) : lookupE (a ++ b) k = lookupE b k := by
  induction a with
  | nil => simp
  | cons p rest ih =>
      obtain ⟨k2, v2⟩ := p
      by_cases hk : k2 = k
      · simp [lookupE, hk] at h
      · simp [lookupE, hk] at h ⊢
        exact ih h

theorem insertE_of_none {α : Type} {acc : List ((String × String) × α)}
    {k : String × String} (v : α) (h : lookupE acc k = none) :
    insertE acc k v = acc ++ [(k, v)] := by
  induction acc with
  | nil => simp [insertE]
  | cons p rest ih =>
      obtain ⟨k2, v2⟩ := p
      by_cases hk : k2 = k
      · simp [lookupE, hk] at h
      · simp [lookupE, hk] at h
        simp [insertE, hk, ih h]

theorem edgeCounts_eq_map (edges : List (String × String))
    (locations : List (String × List String)) (hnd : edges.Nodup) :
    edgeCounts edges locations = edges.map (fun e => (e, edgeCost locations e)) := by
  suffices h : ∀ (edges : List (String × String)) (acc : List ((String × String) × Nat)),
      edges.Nodup → (∀ e ∈ edges, lookupE acc e = none) →
      edges.foldl (fun ec edge =>
          insertE ec edge ((lookupA locations (edgeKey edge.1 edge.2)).getD []).length) acc
        = acc ++ edges.map (fun e => (e, edgeCost locations e)) by
    have := h edges [] hnd (by intro e _; simp [lookupE])
    simpa [edgeCounts] using this
  intro edges
  induction edges with
  | nil => intro acc _ _; simp
  | cons e rest ih =>
      intro acc hnd hnone
      have hne : lookupE acc e = none := hnone e (List.mem_cons_self _ _)
      rw [List.foldl_cons, insertE_of_none _ hne]
      have hnd2 : rest.Nodup := (List.nodup_cons.mp hnd).2
      have henotin : e ∉ rest := (List.nodup_cons.mp hnd).1
      rw [ih (acc ++ [(e, ((lookupA locations (edgeKey e.1 e.2)).getD []).length)]) hnd2 ?_]
      · simp [edgeCost]
      · intro e2 he2
        have hne2 : lookupE acc e2 = none := hnone e2 (List.mem_cons_of_mem _ he2)
        rw [lookupE_append_none _ hne2]
        have : ¬ e = e2 := fun h => henotin (h ▸ he2)
        simp [lookupE, this]

theorem find_breaking_points_flatten (cycles : List (List String))
    (locations : List (String × List String)) :
    find_breaking_points cycles locations =
      (cycles.map (fun cycle => perCycleBp cycle locations)).flatten := by
  suffices h : ∀ (cycles : List (List String)) (init : List BreakPoint),
      cycles.foldl (fun bps cycle => bps ++ perCycleBp cycle locations) init
        = init ++ (cycles.map (fun cycle => perCycleBp cycle locations)).flatten by
    simpa [find_breaking_points] using h cycles []
  intro cycles2
  induction cycles2 with
  | nil => intro init; simp
  | cons cy rest ih =>
      intro init
      rw [List.foldl_cons, ih, List.append_assoc]
      simp

theorem cycleEdges_ne_nil {cycle : List String} (h2 : 2 ≤ cycle.length) :
    cycleEdges cycle ≠ [] := by
  cases cycle with
  | nil => simp at h2
  | cons a t =>
      cases t with
      | nil => simp at h2
      | cons b r => simp [cycleEdges, List.zip_cons_cons]

theorem perCycleBp_spec (cycle : List String) (locations : List (String × List String))
    (h2 : 2 ≤ cycle.length) (hnd : (cycleEdges cycle).Nodup) :
    ∃ bp, perCycleBp cycle locations = [bp] ∧ bp.cycle = cycle ∧
      bp.breakEdge ∈ cycleEdges cycle ∧
      bp.referenceCount = edgeCost locations bp.breakEdge ∧
      bp.locations = (lookupA locations (edgeKey bp.breakEdge.1 bp.breakEdge.2)).getD [] ∧
      (∀ e ∈ cycleEdges cycle, edgeCost locations bp.breakEdge ≤ edgeCost locations e) ∧
      ∃ pre post, cycleEdges cycle = pre ++ bp.breakEdge :: post ∧
        ∀ e ∈ pre, edgeCost locations bp.breakEdge < edgeCost locations e := by
  obtain ⟨e0, restE, hE⟩ : ∃ e0 restE, cycleEdges cycle = e0 :: restE := by
    cases h : cycleEdges cycle with
    | nil => exact absurd h (cycleEdges_ne_nil h2)
    | cons a t => exact ⟨a, t, rfl⟩
  have hec : edgeCounts (cycleEdges cycle) locations =
      (cycleEdges cycle).map (fun e => (e, edgeCost locations e)) :=
    edgeCounts_eq_map _ _ hnd
  rw [hE] at hec
  obtain ⟨m, hmdef⟩ :
      ∃ m, (restE.map (fun e => (e, edgeCost locations e))).foldl
        (fun best x => if x.2 < best.2 then x else best)
        ((fun e => (e, edgeCost locations e)) e0) = m := ⟨_, rfl⟩
  rcases foldl_min_spec (restE.map (fun e => (e, edgeCost locations e)))
      ((fun e => (e, edgeCost locations e)) e0) m hmdef with ⟨hmem, hmin, pre, post, hdec, hpre⟩
  have hmapformed : ((fun e => (e, edgeCost locations e)) e0) ::
      restE.map (fun e => (e, edgeCost locations e)) =
      (e0 :: restE).map (fun e => (e, edgeCost locations e)) := by simp
  rw [hmapformed] at hmem hmin hdec
  rcases List.mem_map.mp hmem with ⟨eM, heM, heMeq⟩
  obtain ⟨me, mc⟩ := m
  have hme : eM = me := congrArg Prod.fst heMeq
  have hmc : edgeCost locations eM = mc := congrArg Prod.snd heMeq
  subst hme
  subst hmc
  have hbp : perCycleBp cycle locations =
      [{ cycle := cycle, breakEdge := eM, referenceCount := edgeCost locations eM,
         locations := (lookupA locations (edgeKey eM.1 eM.2)).getD [] }] := by
    unfold perCycleBp
    rw [hE, hec]
    simp only [List.map_cons, minByCount]
    rw [hmdef]
  refine ⟨_, hbp, rfl, ?_, rfl, rfl, ?_, ?_⟩
  · rw [hE]
    exact heM
  · intro e he
    rw [hE] at he
    have h3 := hmin ((fun e => (e, edgeCost locations e)) e)
      (List.mem_map.mpr ⟨e, he, rfl⟩)
    simpa using h3
  · rcases List.map_eq_append_iff.mp hdec with ⟨preA, rest2, hsplit, hpreA, hrest2⟩
    cases rest2 with
    | nil => simp at hrest2
    | cons aM postA =>
        simp only [List.map_cons] at hrest2
        have haM : aM = eM := by
          have := (List.cons_eq_cons.mp hrest2).1
          exact congrArg Prod.fst this
        refine ⟨preA, postA, ?_, ?_⟩
        · rw [hE, hsplit, haM]
        · intro e he
          have hmm : (e, edgeCost locations e) ∈ pre := by
            rw [← hpreA]
            exact List.mem_map.mpr ⟨e, he, rfl⟩
          simpa using hpre _ hmm

/-- C3.  Minimum-reference edge selection with first-minimum tie-break: for
every detected cycle with at least one edge (and distinct consecutive edges,
as every cycle emitted by the detector has), `find_breaking_points` emits a
decision whose edge is a consecutive edge of the cycle backed by the fewest
recorded locations, every earlier edge in iteration order being backed by
strictly more; in particular, for the cycle `X -> Y -> X` where edge `X->Y`
has 1 recorded location and `Y->X` has 3, it selects `X->Y`. -/
theorem breaking_point_minimum_selection :
    (∀ (cycles : List (List String)) (locations : List (String × List String))
        (cycle : List String), cycle ∈ cycles → 2 ≤ cycle.length →
        (cycleEdges cycle).Nodup →
        ∃ bp ∈ find_breaking_points cycles locations, bp.cycle = cycle ∧
          bp.breakEdge ∈ cycleEdges cycle ∧
          bp.referenceCount = edgeCost locations bp.breakEdge ∧
          (∀ e ∈ cycleEdges cycle, edgeCost locations bp.breakEdge ≤ edgeCost locations e) ∧
          ∃ pre post, cycleEdges cycle = pre ++ bp.breakEdge :: post ∧
            ∀ e ∈ pre, edgeCost locations bp.breakEdge < edgeCost locations e) ∧
    (find_breaking_points [["X", "Y", "X"]]
        [("X -> Y", ["p1"]), ("Y -> X", ["q1", "q2", "q3"])]).map
        (fun bp => bp.breakEdge) = [("X", "Y")] := by
  constructor
  · intro cycles locations cycle hmem h2 hnd
    rcases perCycleBp_spec cycle locations h2 hnd with
      ⟨bp, hbp, hcy, hedge, hcnt, _, hmin, hdec⟩
    refine ⟨bp, ?_, hcy, hedge, hcnt, hmin, hdec⟩
    rw [find_breaking_points_flatten]
    exact List.mem_flatten.mpr ⟨perCycleBp cycle locations,
      List.mem_map.mpr ⟨cycle, hmem, rfl⟩, by rw [hbp]; exact List.mem_singleton.mpr rfl⟩
  · decide

theorem breaking_point_minimum_selection_witness :
    ∃ bp ∈ find_breaking_points [["X", "Y", "X"]]
        [("X -> Y", ["p1"]), ("Y -> X", ["q1", "q2", "q3"])],
      bp.cycle = ["X", "Y", "X"] ∧
      bp.breakEdge ∈ cycleEdges ["X", "Y", "X"] ∧
      bp.referenceCount =
        edgeCost [("X -> Y", ["p1"]), ("Y -> X", ["q1", "q2", "q3"])] bp.breakEdge ∧
      (∀ e ∈ cycleEdges ["X", "Y", "X"],
        edgeCost [("X -> Y", ["p1"]), ("Y -> X", ["q1", "q2", "q3"])] bp.breakEdge ≤
          edgeCost [("X -> Y", ["p1"]), ("Y -> X", ["q1", "q2", "q3"])] e) ∧
      ∃ pre post, cycleEdges ["X", "Y", "X"] = pre ++ bp.breakEdge :: post ∧
        ∀ e ∈ pre,
          edgeCost [("X -> Y", ["p1"]), ("Y -> X", ["q1", "q2", "q3"])] bp.breakEdge <
            edgeCost [("X -> Y", ["p1"]), ("Y -> X", ["q1", "q2", "q3"])] e :=
  breaking_point_minimum_selection.1 [["X", "Y", "X"]]
    [("X -> Y", ["p1"]), ("Y -> X", ["q1", "q2", "q3"])] ["X", "Y", "X"]
    (by decide) (by decide) (by decide)

/-! ## Cycle deduplication (C4) -/

theorem dedupCycles_nodup (cycles : List (List String)) : (dedupCycles cycles).Nodup := by
  suffices h : ∀ (cycles : List (List String)) (acc : List (List String) × List (List String)),
      (∀ cy ∈ acc.1, cy ∈ acc.2) → acc.1.Nodup →
      (cycles.foldl
        (fun (acc : List (List String) × List (List String)) cycle =>
          if cycle ∈ acc.2 then acc else (acc.1 ++ [cycle], cycle :: acc.2)) acc).1.Nodup by
    exact h cycles ([], []) (by simp) (by simp)
  intro cycles2
  induction cycles2 with
  | nil => intro acc hsub hnd; simpa using hnd
  | cons cy rest ih =>
      intro acc hsub hnd
      rw [List.foldl_cons]
      by_cases hcy : cy ∈ acc.2
      · rw [if_pos hcy]
        exact ih acc hsub hnd
      · rw [if_neg hcy]
        refine ih _ ?_ ?_
        · intro c hc
          rcases List.mem_append.mp hc with hc | hc
          · exact List.mem_cons_of_mem _ (hsub c hc)
          · rcases List.mem_singleton.mp hc with rfl
            exact List.mem_cons_self _ _
        · refine List.Nodup.append hnd (by simp) ?_
          intro c hc hc2
          rcases List.mem_singleton.mp hc2 with rfl
          exact hcy (hsub c hc)

/-- C4 counterexample: on the two-node cycle graph `A -> B -> A`, the cycle
detector returns two entries that are rotations of one another (the same
cycle discovered from the two roots), so rotations are not collapsed. -/
theorem detect_cycles_rotations_not_collapsed :
    detect_cycles [("A", ["B"]), ("B", ["A"])] = [["A", "B", "A"], ["B", "A", "B"]] ∧
    (["B", "A", "B"] : List String).dropLast =
      (["A", "B", "A"] : List String).dropLast.rotate 1 ∧
    (detect_cycles [("A", ["B"]), ("B", ["A"])]).length = 2 := by
  refine ⟨by decide, by decide, by decide⟩

/-- C4 amended: the cycle detector's deduplication is by literal recorded node
sequence only: the returned sequence contains each literal cycle sequence at
most once, while rotations of one cycle discovered from different roots remain
distinct entries (see the counterexample). -/
theorem detect_cycles_literal_dedup (graph : List (String × List String)) :
    (detect_cycles graph).Nodup :=
  dedupCycles_nodup _

/-! ## Characterisation of `remove_ref` (C5) -/

/-- Resolving one path segment the way `remove_ref` navigates: a digit
segment is converted with `int(...)` and can only index a sequence, any other
segment can only index a mapping. -/
def getSeg (n : Node) (seg : String) : Option Node :=
  if pyIsDigit seg then
    match n with
    | Node.arr items => items[pyToNat seg]?
    | _ => none
  else
    match n with
    | Node.obj m => lookupA m seg
    | _ => none

/-- Writing one path segment in place, on the same navigation rules. -/
def setSeg (n : Node) (seg : String) (v : Node) : Node :=
  if pyIsDigit seg then
    match n with
    | Node.arr items => Node.arr (items.set (pyToNat seg) v)
    | _ => n
  else
    match n with
    | Node.obj m => Node.obj (insertA m seg v)
    | _ => n

/-- The leaf reached by following all path segments from a node. -/
def getAtParts : Node → List String → Option Node
  | n, [] => some n
  | n, seg :: rest =>
      match getSeg n seg with
      | some child => getAtParts child rest
      | none => none

/-- Replacing the leaf at the end of a segment path, in place. -/
def setAtParts : Node → List String → Node → Node
  | n, [], _ => n
  | n, [seg], v => setSeg n seg v
  | n, seg :: rest, v =>
      match getSeg n seg with
      | some child => setSeg n seg (setAtParts child rest v)
      | none => n

theorem chSplit_ne_nil (sep : Char) : ∀ l : List Char, chSplit sep l ≠ []
  | [] => by simp [chSplit]
  | c :: cs => by
      simp only [chSplit]
      by_cases h : c = sep
      · simp [h]
      · cases hr : chSplit sep cs <;> simp [h, hr]

theorem getAtParts_cons (n : Node) (seg : String) (rest : List String) :
    getAtParts n (seg :: rest) =
      (match getSeg n seg with
       | some child => getAtParts child rest
       | none => none) := rfl

theorem removeRefParts_eq (dst : String) :
    ∀ (parts : List String) (n : Node), parts ≠ [] →
    removeRefParts dst n parts =
      (match getAtParts n parts with
       | some leaf =>
           if leafMatches leaf dst then some (setAtParts n parts (placeholderFor dst))
           else none
       | none => none)
  | [], _, hne => absurd rfl hne
  | [lastKey], n, _ => by
      by_cases hd : pyIsDigit lastKey
      · cases n with
        | arr items =>
            simp only [removeRefParts, getAtParts, getSeg, setAtParts, setSeg, hd]
            cases hi : items[pyToNat lastKey]? with
            | none => rfl
            | some child =>
                by_cases hm : leafMatches child dst <;> simp [hm]
        | obj m => simp [removeRefParts, getAtParts, getSeg, hd]
        | str s => simp [removeRefParts, getAtParts, getSeg, hd]
        | atom => simp [removeRefParts, getAtParts, getSeg, hd]
      · cases n with
        | obj m =>
            simp only [removeRefParts, getAtParts, getSeg, setAtParts, setSeg, hd]
            cases hl : lookupA m lastKey with
            | none => rfl
            | some child =>
                by_cases hm : leafMatches child dst <;> simp [hm]
        | arr items => simp [removeRefParts, getAtParts, getSeg, hd]
        | str s => simp [removeRefParts, getAtParts, getSeg, hd]
        | atom => simp [removeRefParts, getAtParts, getSeg, hd]
  | seg :: seg2 :: rest, n, _ => by
      have ih : ∀ child : Node, removeRefParts dst child (seg2 :: rest) =
          (match getAtParts child (seg2 :: rest) with
           | some leaf =>
               if leafMatches leaf dst then
                 some (setAtParts child (seg2 :: rest) (placeholderFor dst))
               else none
           | none => none) :=
        fun child => removeRefParts_eq dst (seg2 :: rest) child (by simp)
      by_cases hd : pyIsDigit seg
      · cases n with
        | arr items =>
            simp only [removeRefParts, hd, if_true]
            cases hi : items[pyToNat seg]? with
            | none =>
                conv_rhs => rw [getAtParts_cons]
                simp [getSeg, hd, hi]
            | some child =>
                simp only [ih]
                conv_rhs => rw [getAtParts_cons]
                simp [getSeg, hd, hi]
                cases hg : getAtParts child (seg2 :: rest) with
                | none => simp [hg]
                | some leaf =>
                    by_cases hm : leafMatches leaf dst <;>
                      simp [hg, setAtParts, setSeg, getSeg, hd, hi, hm]
        | obj m => simp [removeRefParts, getAtParts, getSeg, hd]
        | str s => simp [removeRefParts, getAtParts, getSeg, hd]
        | atom => simp [removeRefParts, getAtParts, getSeg, hd]
      · cases n with
        | obj m =>
            simp only [removeRefParts, hd, if_false]
            cases hl : lookupA m seg with
            | none =>
                conv_rhs => rw [getAtParts_cons]
                simp [getSeg, hd, hl]
            | some child =>
                simp only [ih]
                conv_rhs => rw [getAtParts_cons]
                simp [getSeg, hd, hl]
                cases hg : getAtParts child (seg2 :: rest) with
                | none => simp [hg]
                | some leaf =>
                    by_cases hm : leafMatches leaf dst <;>
                      simp [hg, setAtParts, setSeg, getSeg, hd, hl, hm]
        | arr items => simp [removeRefParts, getAtParts, getSeg, hd]
        | str s => simp [removeRefParts, getAtParts, getSeg, hd]
        | atom => simp [removeRefParts, getAtParts, getSeg, hd]

/-- C5 counterexample: a resolved leaf that carries the matching `$ref`
alongside another key is replaced by the placeholder all the same (the source
only tests `"$ref" in leaf`, not that the mapping is single-key), so the
claim's only-if direction fails. -/
theorem remove_ref_replaces_multikey_leaf :
    remove_ref
      (Node.obj [("properties", Node.obj [("x",
        Node.obj [("$ref", Node.str "#/components/schemas/B"),
                  ("description", Node.str "d")])])])
      "A" "B" "properties/x"
    = some (Node.obj [("properties", Node.obj [("x", placeholderFor "B")])]) := by
  decide

/-- C5 amended: for a non-empty location path, `remove_ref` replaces the
resolved leaf with the placeholder object if and only if the leaf is a
mapping whose `$ref` entry equals the expected target reference string — the
mapping need not be single-key, and any other keys of the leaf are discarded
by the replacement.  On success the result is exactly the input with the
placeholder written at the resolved path. -/
theorem remove_ref_characterisation (obj : Node) (src dst p : String) (hp : p ≠ "") :
    remove_ref obj src dst p =
      (match getAtParts obj (pyStripSplit p) with
       | some leaf =>
           if leafMatches leaf dst then
             some (setAtParts obj (pyStripSplit p) (placeholderFor dst))
           else none
       | none => none) ∧
    (∀ m : List (String × Node), leafMatches (Node.obj m) dst =
      (lookupA m "$ref" = some (Node.str ("#/components/schemas/" ++ dst)) : Bool)) ∧
    (∀ s : String, leafMatches (Node.str s) dst = false) ∧
    leafMatches Node.atom dst = false := by
  refine ⟨?_, ?_, fun s => rfl, rfl⟩
  · have hne : pyStripSplit p ≠ [] := by
      unfold pyStripSplit
      intro h
      exact chSplit_ne_nil '/' _ (List.map_eq_nil_iff.mp h)
    rw [remove_ref, if_neg hp]
    exact removeRefParts_eq dst (pyStripSplit p) obj hne
  · intro m
    unfold leafMatches
    cases hl : lookupA m "$ref" with
    | none => simp [hl]
    | some v =>
        by_cases hv : v = Node.str ("#/components/schemas/" ++ dst) <;> simp [hl, hv]

theorem remove_ref_characterisation_witness :
    ("properties/x" : String) ≠ "" ∧
    (remove_ref
        (Node.obj [("properties", Node.obj [("x",
          Node.obj [("$ref", Node.str "#/components/schemas/B"),
                    ("description", Node.str "d")])])])
        "A" "B" "properties/x" =
      (match getAtParts
          (Node.obj [("properties", Node.obj [("x",
            Node.obj [("$ref", Node.str "#/components/schemas/B"),
                      ("description", Node.str "d")])])])
          (pyStripSplit "properties/x") with
       | some leaf =>
           if leafMatches leaf "B" then
             some (setAtParts
               (Node.obj [("properties", Node.obj [("x",
                 Node.obj [("$ref", Node.str "#/components/schemas/B"),
                           ("description", Node.str "d")])])])
               (pyStripSplit "properties/x") (placeholderFor "B"))
           else none
       | none => none)) :=
  ⟨by decide,
   (remove_ref_characterisation
      (Node.obj [("properties", Node.obj [("x",
        Node.obj [("$ref", Node.str "#/components/schemas/B"),
                  ("description", Node.str "d")])])])
      "A" "B" "properties/x" (by decide)).1⟩

/-! ## Path/method extraction (C8) -/

theorem mem_extractMethodsAux {mm : String} {op : Node} :
    ∀ (pathVal : Node) (ms : List String) (acc : List (String × Node)),
    (mm, op) ∈ extractMethodsAux pathVal ms acc →
    (mm, op) ∈ acc ∨ ∃ m0 ∈ ms, mm = pyLower m0 ∧
      ∃ pvD, pathVal = Node.obj pvD ∧ lookupA pvD mm = some op := by
  intro pathVal ms
  induction ms with
  | nil => intro acc h2; exact Or.inl h2
  | cons m0 rest ih =>
      intro acc h2
      cases pathVal with
      | obj pv =>
          have h2b : (mm, op) ∈ extractMethodsAux (Node.obj pv) rest
              (match lookupA pv (pyLower m0) with
               | some op2 => insertA acc (pyLower m0) op2
               | none => acc) := h2
          cases hl : lookupA pv (pyLower m0) with
          | none =>
              simp only [hl] at h2b
              rcases ih _ h2b with h3 | ⟨m1, hm1, hlow, pvD, hpv, hlk⟩
              · exact Or.inl h3
              · exact Or.inr ⟨m1, List.mem_cons_of_mem _ hm1, hlow, pvD, hpv, hlk⟩
          | some opv =>
              simp only [hl] at h2b
              rcases ih _ h2b with h3 | ⟨m1, hm1, hlow, pvD, hpv, hlk⟩
              · rcases mem_insertA h3 with h4 | h4
                · exact Or.inl h4
                · have hmm : mm = pyLower m0 := congrArg Prod.fst h4
                  have hop : op = opv := congrArg Prod.snd h4
                  exact Or.inr ⟨m0, List.mem_cons_self _ _, hmm, pv, rfl,
                    by rw [hmm, hl, hop]⟩
              · exact Or.inr ⟨m1, List.mem_cons_of_mem _ hm1, hlow, pvD, hpv, hlk⟩
      | str s =>
          have h2b : (mm, op) ∈ extractMethodsAux (Node.str s) rest acc := h2
          rcases ih _ h2b with h3 | ⟨m1, hm1, hlow, pvD, hpv, hlk⟩
          · exact Or.inl h3
          · exact Or.inr ⟨m1, List.mem_cons_of_mem _ hm1, hlow, pvD, hpv, hlk⟩
      | atom =>
          have h2b : (mm, op) ∈ extractMethodsAux Node.atom rest acc := h2
          rcases ih _ h2b with h3 | ⟨m1, hm1, hlow, pvD, hpv, hlk⟩
          · exact Or.inl h3
          · exact Or.inr ⟨m1, List.mem_cons_of_mem _ hm1, hlow, pvD, hpv, hlk⟩
      | arr items =>
          have h2b : (mm, op) ∈ extractMethodsAux (Node.arr items) rest acc := h2
          rcases ih _ h2b with h3 | ⟨m1, hm1, hlow, pvD, hpv, hlk⟩
          · exact Or.inl h3
          · exact Or.inr ⟨m1, List.mem_cons_of_mem _ hm1, hlow, pvD, hpv, hlk⟩

theorem mem_extractMethods {pathVal : Node} {ms : List String} {mm : String} {op : Node}
    (h : (mm, op) ∈ extractMethods pathVal ms) :
    ∃ m0 ∈ ms, mm = pyLower m0 ∧
      ∃ pvD, pathVal = Node.obj pvD ∧ lookupA pvD mm = some op := by
  rcases mem_extractMethodsAux pathVal ms [] h with h2 | h2
  · simp at h2
  · exact h2

theorem mem_extractPathsAux {pathsD : List (String × Node)} {p : String} {d : Node} :
    ∀ (req : List (String × List String)) (acc : List (String × Node)),
    (p, d) ∈ extractPathsAux pathsD req acc →
    (p, d) ∈ acc ∨ ∃ ms pv, (p, ms) ∈ req ∧ lookupA pathsD p = some pv ∧
      d = Node.obj (extractMethods pv ms) ∧ extractMethods pv ms ≠ [] := by
  intro req
  induction req with
  | nil => intro acc h2; exact Or.inl h2
  | cons pr rest ih =>
      obtain ⟨path, methods⟩ := pr
      intro acc h2
      have h2b : (p, d) ∈ extractPathsAux pathsD rest
          (match lookupA pathsD path with
           | some pathVal =>
               if (extractMethods pathVal methods).isEmpty then acc
               else insertA acc path (Node.obj (extractMethods pathVal methods))
           | none => acc) := h2
      cases hl : lookupA pathsD path with
      | none =>
          simp only [hl] at h2b
          rcases ih _ h2b with h3 | ⟨ms, pv, hms, hpv, hd, hne⟩
          · exact Or.inl h3
          · exact Or.inr ⟨ms, pv, List.mem_cons_of_mem _ hms, hpv, hd, hne⟩
      | some pathVal =>
          simp only [hl] at h2b
          by_cases he : (extractMethods pathVal methods).isEmpty = true
          · rw [if_pos he] at h2b
            rcases ih _ h2b with h3 | ⟨ms, pv, hms, hpv, hd, hne⟩
            · exact Or.inl h3
            · exact Or.inr ⟨ms, pv, List.mem_cons_of_mem _ hms, hpv, hd, hne⟩
          · rw [if_neg he] at h2b
            rcases ih _ h2b with h3 | ⟨ms, pv, hms, hpv, hd, hne⟩
            · rcases mem_insertA h3 with h4 | h4
              · exact Or.inl h4
              · have hp : p = path := congrArg Prod.fst h4
                have hd : d = Node.obj (extractMethods pathVal methods) :=
                  congrArg Prod.snd h4
                refine Or.inr ⟨methods, pathVal, ?_, ?_, hd, ?_⟩
                · rw [hp]; exact List.mem_cons_self _ _
                · rw [hp]; exact hl
                · intro hnil
                  exact he (by rw [hnil]; rfl)
            · exact Or.inr ⟨ms, pv, List.mem_cons_of_mem _ hms, hpv, hd, hne⟩

theorem extractPathsAux_skip {pathsD : List (String × Node)} {p : String} :
    ∀ (req : List (String × List String)) (acc : List (String × Node)),
    p ∉ req.map Prod.fst →
    lookupA (extractPathsAux pathsD req acc) p = lookupA acc p := by
  intro req
  induction req with
  | nil => intro acc _; rfl
  | cons pr rest ih =>
      obtain ⟨path, methods⟩ := pr
      intro acc hnot
      rw [List.map_cons] at hnot
      have hpath : ¬ path = p := fun h => hnot (by simp [h])
      have hrest : p ∉ rest.map Prod.fst := fun h => hnot (List.mem_cons_of_mem _ h)
      have hstep : lookupA (extractPathsAux pathsD ((path, methods) :: rest) acc) p =
          lookupA (extractPathsAux pathsD rest
            (match lookupA pathsD path with
             | some pathVal =>
                 if (extractMethods pathVal methods).isEmpty then acc
                 else insertA acc path (Node.obj (extractMethods pathVal methods))
             | none => acc)) p := rfl
      rw [hstep, ih _ hrest]
      cases hl : lookupA pathsD path with
      | none => rfl
      | some pathVal =>
          by_cases he : (extractMethods pathVal methods).isEmpty = true
          · simp [he]
          · simp [he, lookupA_insertA, hpath]

theorem extractPathsAux_omits {pathsD : List (String × Node)} {p : String}
    {ms : List String} :
    ∀ (req : List (String × List String)) (acc : List (String × Node)),
    (req.map Prod.fst).Nodup → (p, ms) ∈ req →
    (∀ pv, lookupA pathsD p = some pv → extractMethods pv ms = []) →
    lookupA (extractPathsAux pathsD req acc) p = lookupA acc p := by
  intro req
  induction req with
  | nil => intro acc _ hmem _; simp at hmem
  | cons pr rest ih =>
      obtain ⟨path, methods⟩ := pr
      intro acc hnd hmem hempty
      have hstep : lookupA (extractPathsAux pathsD ((path, methods) :: rest) acc) p =
          lookupA (extractPathsAux pathsD rest
            (match lookupA pathsD path with
             | some pathVal =>
                 if (extractMethods pathVal methods).isEmpty then acc
                 else insertA acc path (Node.obj (extractMethods pathVal methods))
             | none => acc)) p := rfl
      rw [List.map_cons, List.nodup_cons] at hnd
      rcases List.mem_cons.mp hmem with h4 | h4
      · have hp : path = p := (congrArg Prod.fst h4).symm
        have hms : methods = ms := (congrArg Prod.snd h4).symm
        have hnotin : p ∉ rest.map Prod.fst := hp ▸ hnd.1
        rw [hstep, extractPathsAux_skip rest _ hnotin]
        cases hl : lookupA pathsD path with
        | none => rfl
        | some pathVal =>
            have hemp : extractMethods pathVal ms = [] := by
              refine hempty pathVal ?_
              rw [← hp]
              exact hl
            simp [hms, hemp]
      · have hp : ¬ path = p := by
          intro hpp
          subst hpp
          exact hnd.1 (List.mem_map.mpr ⟨(path, ms), h4, rfl⟩)
        rw [hstep, ih _ hnd.2 h4 hempty]
        cases hl : lookupA pathsD path with
        | none => rfl
        | some pathVal =>
            by_cases he : (extractMethods pathVal methods).isEmpty = true
            · simp [he]
            · simp [he, lookupA_insertA, hp]

/-- C8.  Path/method extraction: whenever `extract_paths` succeeds, every
entry of the output names a requested path that is present in the source
`paths` mapping, its value is exactly the dict of the requested methods
(lowercased) found under that path and is non-empty, and every method entry
in it comes from a requested method name whose lowercase form is present
under the path; a requested path none of whose requested methods matches is
omitted entirely.  In particular, for a source with paths `/a` (get, post)
and `/b` (get) and request `{"/a": ["get"]}`, the output contains only `/a`
with only its `get` operation. -/
theorem extract_paths_correct :
    (∀ (m : List (String × Node)) (pathsD : List (String × Node))
        (req : List (String × List String)) (out : List (String × Node)),
      lookupA m "paths" = some (Node.obj pathsD) →
      extract_paths (Node.obj m) req = some out →
      (∀ p d, (p, d) ∈ out →
        ∃ ms pv, (p, ms) ∈ req ∧ lookupA pathsD p = some pv ∧
          d = Node.obj (extractMethods pv ms) ∧ extractMethods pv ms ≠ [] ∧
          ∀ mm opn, (mm, opn) ∈ extractMethods pv ms →
            ∃ m0 ∈ ms, mm = pyLower m0 ∧
              ∃ pvD, pv = Node.obj pvD ∧ lookupA pvD mm = some opn) ∧
      ((req.map Prod.fst).Nodup → ∀ p ms, (p, ms) ∈ req →
        (∀ pv, lookupA pathsD p = some pv → extractMethods pv ms = []) →
        lookupA out p = none)) ∧
    extract_paths
        (Node.obj [("paths", Node.obj
          [("/a", Node.obj [("get", Node.str "opAget"), ("post", Node.str "opApost")]),
           ("/b", Node.obj [("get", Node.str "opBget")])])])
        [("/a", ["get"])]
      = some [("/a", Node.obj [("get", Node.str "opAget")])] := by
  constructor
  · intro m pathsD req out hm hout
    have hout2 : out = extractPathsAux pathsD req [] := by
      simp only [extract_paths, hm, Option.some.injEq] at hout
      exact hout.symm
    constructor
    · intro p d hpd
      rw [hout2] at hpd
      rcases mem_extractPathsAux req [] hpd with h2 | ⟨ms, pv, hms, hpv, hd, hne⟩
      · simp at h2
      · exact ⟨ms, pv, hms, hpv, hd, hne, fun mm opn hmo => mem_extractMethods hmo⟩
    · intro hnd p ms hmem hempty
      rw [hout2, extractPathsAux_omits req [] hnd hmem hempty]
      rfl
  · decide

theorem extract_paths_correct_witness :
    (lookupA [("paths", Node.obj
        [("/a", Node.obj [("get", Node.str "opAget"), ("post", Node.str "opApost")]),
         ("/b", Node.obj [("get", Node.str "opBget")])])] "paths"
      = some (Node.obj
        [("/a", Node.obj [("get", Node.str "opAget"), ("post", Node.str "opApost")]),
         ("/b", Node.obj [("get", Node.str "opBget")])])) ∧
    ((∀ p d, (p, d) ∈ [("/a", Node.obj [("get", Node.str "opAget")])] →
        ∃ ms pv, (p, ms) ∈ [("/a", ["get"])] ∧
          lookupA [("/a", Node.obj [("get", Node.str "opAget"), ("post", Node.str "opApost")]),
                   ("/b", Node.obj [("get", Node.str "opBget")])] p = some pv ∧
          d = Node.obj (extractMethods pv ms) ∧ extractMethods pv ms ≠ [] ∧
          ∀ mm opn, (mm, opn) ∈ extractMethods pv ms →
            ∃ m0 ∈ ms, mm = pyLower m0 ∧
              ∃ pvD, pv = Node.obj pvD ∧ lookupA pvD mm = some opn) ∧
      ((([("/a", ["get"] )].map Prod.fst).Nodup : Prop) → ∀ p ms, (p, ms) ∈ [("/a", ["get"])] →
        (∀ pv, lookupA [("/a", Node.obj [("get", Node.str "opAget"), ("post", Node.str "opApost")]),
                        ("/b", Node.obj [("get", Node.str "opBget")])] p = some pv →
          extractMethods pv ms = []) →
        lookupA [("/a", Node.obj [("get", Node.str "opAget")])] p = none)) :=
  ⟨by decide,
   extract_paths_correct.1
     [("paths", Node.obj
       [("/a", Node.obj [("get", Node.str "opAget"), ("post", Node.str "opApost")]),
        ("/b", Node.obj [("get", Node.str "opBget")])])]
     [("/a", Node.obj [("get", Node.str "opAget"), ("post", Node.str "opApost")]),
      ("/b", Node.obj [("get", Node.str "opBget")])]
     [("/a", ["get"])]
     [("/a", Node.obj [("get", Node.str "opAget")])]
     (by decide) (by decide)⟩

/-! ## Reference-graph location recording and empty-path removals (C10) -/

/-- Membership of a recorded location (or neighbour) in a bucket map. -/
def inBucket (m : List (String × List String)) (k v : String) : Prop :=
  v ∈ (lookupA m k).getD []

theorem inBucket_addToBucket {m : List (String × List String)} {k2 v2 : String}
    (k v : String) (h : inBucket m k2 v2) : inBucket (addToBucket m k v) k2 v2 := by
  unfold inBucket at h ⊢
  unfold addToBucket
  rw [lookupA_insertA]
  by_cases hk : k = k2
  · rw [if_pos hk, Option.getD_some]
    subst hk
    exact insertS_subset h
  · rw [if_neg hk]
    exact h

theorem inBucket_addToBucket_self (m : List (String × List String)) (k v : String) :
    inBucket (addToBucket m k v) k v := by
  unfold inBucket addToBucket
  rw [lookupA_insertA, if_pos rfl, Option.getD_some]
  exact mem_insertS.mpr (Or.inr rfl)

mutual

theorem extractRefs_inBucket (cur : String) :
    ∀ (st : GraphSt) (node : Node) (path k2 v2 : String),
    inBucket st.locations k2 v2 →
    inBucket (extractRefs cur st node path).locations k2 v2
  | st, Node.obj entries, path, k2, v2, h => by
      rw [extractRefs]
      apply extractRefsEntries_inBucket
      cases href : lookupA entries "$ref" with
      | none => simpa [href] using h
      | some v =>
          cases v with
          | str s =>
              by_cases hpre : pyStarts s schemaContext
              · by_cases hcur : cur ≠ ""
                · simpa [href, hpre, hcur] using
                    inBucket_addToBucket _ _ h
                · simpa [href, hpre, hcur] using h
              · simpa [href, hpre] using h
          | atom => simpa [href] using h
          | obj o => simpa [href] using h
          | arr a => simpa [href] using h
  | st, Node.arr items, path, k2, v2, h => by
      rw [extractRefs]
      exact extractRefsItems_inBucket cur st items path 0 k2 v2 h
  | st, Node.str s, path, k2, v2, h => by
      simpa [extractRefs] using h
  | st, Node.atom, path, k2, v2, h => by
      simpa [extractRefs] using h

theorem extractRefsEntries_inBucket (cur : String) :
    ∀ (st : GraphSt) (entries : List (String × Node)) (path k2 v2 : String),
    inBucket st.locations k2 v2 →
    inBucket (extractRefsEntries cur st entries path).locations k2 v2
  | st, [], path, k2, v2, h => by
      rw [extractRefsEntries]
      exact h
  | st, (key, value) :: rest, path, k2, v2, h => by
      rw [extractRefsEntries]
      exact extractRefsEntries_inBucket cur _ rest path k2 v2
        (extractRefs_inBucket cur st value _ k2 v2 h)

theorem extractRefsItems_inBucket (cur : String) :
    ∀ (st : GraphSt) (items : List Node) (path : String) (i : Nat) (k2 v2 : String),
    inBucket st.locations k2 v2 →
    inBucket (extractRefsItems cur st items path i).locations k2 v2
  | st, [], path, i, k2, v2, h => by
      rw [extractRefsItems]
      exact h
  | st, item :: rest, path, i, k2, v2, h => by
      rw [extractRefsItems]
      exact extractRefsItems_inBucket cur _ rest path (i + 1) k2 v2
        (extractRefs_inBucket cur st item _ k2 v2 h)

end

theorem extractRefs_records {cur : String} {entries : List (String × Node)}
    {st : GraphSt} {r : String} (path : String)
    (href : lookupA entries "$ref" = some (Node.str r))
    (hpre : pyStarts r schemaContext = true) (hcur : cur ≠ "") :
    inBucket (extractRefs cur st (Node.obj entries) path).locations
      (edgeKey cur ⟨r.data.drop schemaContext.data.length⟩) path := by
  rw [extractRefs]
  apply extractRefsEntries_inBucket
  simp only [href, hpre, if_true, hcur, ne_eq, not_false_eq_true]
  exact inBucket_addToBucket_self _ _ _

theorem build_reference_graph_records {spec : Node} {S : String}
    {entries : List (String × Node)} {r : String}
    (hmem : (S, Node.obj entries) ∈ schemasOf spec)
    (href : lookupA entries "$ref" = some (Node.str r))
    (hpre : pyStarts r schemaContext = true) (hS : S ≠ "") :
    inBucket (build_reference_graph spec).locations
      (edgeKey S ⟨r.data.drop schemaContext.data.length⟩) "" := by
  unfold build_reference_graph
  suffices h : ∀ (l : List (String × Node)) (st : GraphSt),
      (S, Node.obj entries) ∈ l →
      inBucket (l.foldl (fun st sn => extractRefs sn.1 st sn.2 "") st).locations
        (edgeKey S ⟨r.data.drop schemaContext.data.length⟩) "" from
    h (schemasOf spec) ⟨[], []⟩ hmem
  intro l
  induction l with
  | nil => intro st hmem2; simp at hmem2
  | cons sn rest ih =>
      intro st hmem2
      rw [List.foldl_cons]
      rcases List.mem_cons.mp hmem2 with h4 | h4
      · have hfst : sn.1 = S := (congrArg Prod.fst h4).symm
        have hsnd : sn.2 = Node.obj entries := (congrArg Prod.snd h4).symm
        have hrec := @extractRefs_records S entries st r "" href hpre hS
        have hmono : ∀ (l2 : List (String × Node)) (st2 : GraphSt) (k2 v2 : String),
            inBucket st2.locations k2 v2 →
            inBucket (l2.foldl (fun st sn => extractRefs sn.1 st sn.2 "") st2).locations k2 v2 := by
          intro l2
          induction l2 with
          | nil => intro st2 k2 v2 h5; exact h5
          | cons sn2 rest2 ih2 =>
              intro st2 k2 v2 h5
              rw [List.foldl_cons]
              exact ih2 _ k2 v2 (extractRefs_inBucket sn2.1 st2 sn2.2 "" k2 v2 h5)
        rw [hfst, hsnd]
        exact hmono rest _ _ _ hrec
      · exact ih _ h4

/-- A document whose two schemas reference each other through top-level
`$ref` bodies: the cycle is carried only by references recorded at the empty
location path. -/
def topRefDoc : Node :=
  Node.obj [("components", Node.obj [("schemas", Node.obj
    [("A", Node.obj [("$ref", Node.str "#/components/schemas/B")]),
     ("B", Node.obj [("$ref", Node.str "#/components/schemas/A")])])])]

/-- C10.  Empty-location removals are silently skipped: (1) `remove_ref`
aborts immediately (returns failure) on the empty location path; (2) when a
schema's entire body is itself a reference mapping, the graph builder records
the empty string as that edge's location (the traversal starts at path `""`
and the hit fires before any descent); (3) end to end, on a document whose
cycle is carried only by top-level `$ref` bodies, the cycle is detected and a
breaking point with location set `{""}` is chosen, yet no reference is
removed: the audit log is empty and the output document still contains the
reference. -/
theorem empty_location_removals_skipped :
    (∀ (obj2 : Node) (src dst : String), remove_ref obj2 src dst "" = none) ∧
    (∀ (spec : Node) (S : String) (entries : List (String × Node)) (r : String),
      (S, Node.obj entries) ∈ schemasOf spec →
      lookupA entries "$ref" = some (Node.str r) →
      pyStarts r schemaContext = true → S ≠ "" →
      inBucket (build_reference_graph spec).locations
        (edgeKey S ⟨r.data.drop schemaContext.data.length⟩) "") ∧
    ((lookupA (build_reference_graph topRefDoc).locations "A -> B").getD [] = [""] ∧
     detect_cycles (build_reference_graph topRefDoc).graph ≠ [] ∧
     (find_breaking_points (detect_cycles (build_reference_graph topRefDoc).graph)
        (build_reference_graph topRefDoc).locations).map (fun bp => bp.locations)
       = [[""], [""]] ∧
     remove_circular_references topRefDoc
        (find_breaking_points (detect_cycles (build_reference_graph topRefDoc).graph)
          (build_reference_graph topRefDoc).locations) = (topRefDoc, []) ∧
     lookupA (schemasOf (remove_circular_references topRefDoc
        (find_breaking_points (detect_cycles (build_reference_graph topRefDoc).graph)
          (build_reference_graph topRefDoc).locations)).1) "A"
       = some (Node.obj [("$ref", Node.str "#/components/schemas/B")])) := by
  refine ⟨?_, ?_, by decide, by decide, by decide, by decide, by decide⟩
  · intro obj2 src dst
    simp [remove_ref]
  · intro spec S entries r hmem href hpre hS
    exact build_reference_graph_records hmem href hpre hS

theorem empty_location_removals_skipped_witness :
    inBucket (build_reference_graph topRefDoc).locations (edgeKey "A"
      ⟨("#/components/schemas/B" : String).data.drop
        (schemaContext : String).data.length⟩) "" :=
  empty_location_removals_skipped.2.1 topRefDoc "A"
    [("$ref", Node.str "#/components/schemas/B")] "#/components/schemas/B"
    (by decide) (by decide) (by decide) (by decide)

/-! ## Cycle-detector termination (C7) -/

theorem countNotIn_pos {U l : List String} {x : String} (hxU : x ∈ U) (hxl : x ∉ l) :
    0 < countNotIn U l := by
  have h := @countNotIn_lt U l (x :: l) x hxU hxl (by intro y; simp [or_comm])
  omega

theorem countNotIn_append_lt {U l : List String} {x : String} (hxU : x ∈ U)
    (hxl : x ∉ l) : countNotIn U (l ++ [x]) < countNotIn U l :=
  countNotIn_lt hxU hxl (by intro y; simp)

theorem dfsList_congr {visit1 visit2 : String → List (List String) → List (List String)}
    {nbs : List String} (h : ∀ nb ∈ nbs, ∀ cyc, visit1 nb cyc = visit2 nb cyc) :
    ∀ cycles, dfsList visit1 nbs cycles = dfsList visit2 nbs cycles := by
  induction nbs with
  | nil => intro cycles; rfl
  | cons nb rest ih =>
      intro cycles
      rw [dfsList, dfsList, h nb (List.mem_cons_self _ _) cycles]
      exact ih (fun nb2 hnb2 => h nb2 (List.mem_cons_of_mem _ hnb2)) _

theorem neighbor_mem_dfsUniverse {graph : List (String × List String)} {node nb : String}
    (h : nb ∈ (lookupA graph node).getD []) : nb ∈ dfsUniverse graph := by
  unfold dfsUniverse
  rw [List.mem_dedup, List.mem_flatten]
  cases hl : lookupA graph node with
  | none => rw [hl] at h; simp at h
  | some nbs =>
      rw [hl, Option.getD_some] at h
      exact ⟨node :: nbs, List.mem_map.mpr ⟨(node, nbs), lookupA_mem hl, rfl⟩,
        List.mem_cons_of_mem _ h⟩

theorem key_mem_dfsUniverse {graph : List (String × List String)}
    {p : String × List String} (h : p ∈ graph) : p.1 ∈ dfsUniverse graph := by
  unfold dfsUniverse
  rw [List.mem_dedup, List.mem_flatten]
  exact ⟨p.1 :: p.2, List.mem_map.mpr ⟨p, h, rfl⟩, List.mem_cons_self _ _⟩

theorem dfsVisit_fuel_succ (graph : List (String × List String)) :
    ∀ (fuel : Nat) (node : String) (visited path : List String)
      (cycles : List (List String)),
    node ∈ dfsUniverse graph → countNotIn (dfsUniverse graph) path ≤ fuel →
    dfsVisit graph (fuel + 1) node visited path cycles =
      dfsVisit graph fuel node visited path cycles := by
  intro fuel
  induction fuel with
  | zero =>
      intro node visited path cycles hU hcnt
      rw [dfsVisit, dfsVisit]
      by_cases hpath : node ∈ path
      · rw [if_pos hpath, if_pos hpath]
      · exact absurd (countNotIn_pos hU hpath) (by omega)
  | succ f ih =>
      intro node visited path cycles hU hcnt
      rw [dfsVisit, dfsVisit]
      by_cases hpath : node ∈ path
      · rw [if_pos hpath, if_pos hpath]
      · rw [if_neg hpath, if_neg hpath]
        by_cases hvis : node ∈ visited
        · rw [if_pos hvis, if_pos hvis]
        · rw [if_neg hvis, if_neg hvis]
          refine dfsList_congr ?_ cycles
          intro nb hnb cyc
          refine ih nb _ _ cyc (neighbor_mem_dfsUniverse hnb) ?_
          have := countNotIn_append_lt (l := path) hU hpath
          omega

theorem dfsVisit_fuel_ge (graph : List (String × List String)) (f1 : Nat) :
    ∀ (f2 : Nat), f1 ≤ f2 →
    ∀ (node : String) (visited path : List String) (cycles : List (List String)),
    node ∈ dfsUniverse graph → countNotIn (dfsUniverse graph) path ≤ f1 →
    dfsVisit graph f2 node visited path cycles =
      dfsVisit graph f1 node visited path cycles := by
  intro f2 hle
  induction f2, hle using Nat.le_induction with
  | base => intro node visited path cycles _ _; rfl
  | succ f2 hle ih =>
      intro node visited path cycles hU hcnt
      rw [dfsVisit_fuel_succ graph f2 node visited path cycles hU (by omega)]
      exact ih node visited path cycles hU hcnt

/-- C7.  Cycle-detector termination: the fuelled DFS reaches its fixpoint
within the fuel supplied by `detect_cycles` — any larger fuel produces the
identical finite cycle sequence — and the detector handles self-loops
(`S -> S`) and overlapping cycles, as the two concrete graphs show. -/
theorem detect_cycles_terminates :
    (∀ (graph : List (String × List String)) (fuel : Nat),
      dfsFuel graph ≤ fuel → detectCyclesFuel graph fuel = detect_cycles graph) ∧
    detect_cycles [("S", ["S"])] = [["S", "S"]] ∧
    detect_cycles [("A", ["B", "C"]), ("B", ["A"]), ("C", ["A"])] =
      [["A", "B", "A"], ["A", "C", "A"], ["B", "A", "B"], ["C", "A", "C"]] := by
  refine ⟨?_, by decide, by decide⟩
  intro graph fuel hle
  unfold detect_cycles detectCyclesFuel
  congr 1
  refine List.foldl_ext _ _ [] ?_
  intro cycles p hp
  exact dfsVisit_fuel_ge graph (dfsFuel graph) fuel hle p.1 [] [] cycles
    (key_mem_dfsUniverse hp)
    (by unfold dfsFuel; have := countNotIn_le_length (dfsUniverse graph) []; omega)

theorem detect_cycles_terminates_witness :
    dfsFuel [("S", ["S"])] ≤ 7 ∧
    detectCyclesFuel [("S", ["S"])] 7 = detect_cycles [("S", ["S"])] :=
  ⟨by decide, detect_cycles_terminates.1 [("S", ["S"])] 7 (by decide)⟩

/-! ## The component-closure suite (C1, C2, C9)

Invariants of the fuelled `process_ref` / `find_refs_in_object` recursion:
every closure binding is the source component body for its `(type, name)`
(`Good`), every processed resolvable reference has its body in the closure
(`I2`), every reference inside a stored body is processed up to an explicit
pending set (`ScannedExcept`), and the result is independent of the fuel once
the fuel covers the reference universe. -/

/-- Lookup of a `(type, name)` binding in the closure dict of dicts. -/
def lookup2 (cl : List (String × List (String × Node))) (t n : String) : Option Node :=
  match lookupA cl t with
  | some bucket => lookupA bucket n
  | none => none

/-- The body the source components hold for `(type, name)`. -/
def resolveBody (c : List (String × Node)) (t n : String) : Option Node :=
  match lookupA c t with
  | some (Node.obj bucket) => lookupA bucket n
  | _ => none

/-- Every closure binding holds exactly the source body of its key. -/
def Good (c : List (String × Node)) (st : CollectSt) : Prop :=
  ∀ t n b, lookup2 st.closure t n = some b → resolveBody c t n = some b

/-- Every processed reference that resolves has its body in the closure. -/
def I2 (c : List (String × Node)) (st : CollectSt) : Prop :=
  ∀ r, r ∈ st.processed → ∀ t n b, resolveRef c r = some (t, n, b) →
    lookup2 st.closure t n = some b

/-- Every reference inside any stored body is processed, up to a pending set. -/
def ScannedExcept (st : CollectSt) (P : List String) : Prop :=
  ∀ t n b, lookup2 st.closure t n = some b →
    ∀ r ∈ nodeRefs b, r ∈ st.processed ∨ r ∈ P

theorem resolveRef_inv {c : List (String × Node)} {r t n : String} {b : Node}
    (h : resolveRef c r = some (t, n, b)) :
    refTarget r = some (t, n) ∧
      ∃ bucket, lookupA c t = some (Node.obj bucket) ∧ lookupA bucket n = some b := by
  unfold resolveRef at h
  cases ht : refTarget r with
  | none =>
      simp only [ht] at h
      exact Option.noConfusion h
  | some tn =>
      obtain ⟨t2, n2⟩ := tn
      simp only [ht] at h
      cases hc : lookupA c t2 with
      | none =>
          simp only [hc] at h
          exact Option.noConfusion h
      | some v =>
          simp only [hc] at h
          cases v with
          | obj bucket =>
              cases hb : lookupA bucket n2 with
              | none =>
                  simp only [hb] at h
                  exact Option.noConfusion h
              | some body =>
                  simp only [hb] at h
                  simp only [Option.some.injEq, Prod.mk.injEq] at h
                  obtain ⟨rfl, rfl, rfl⟩ := h
                  exact ⟨rfl, bucket, hc, hb⟩
          | str s => simp at h
          | atom => simp at h
          | arr items => simp at h

theorem resolveBody_of_resolveRef {c : List (String × Node)} {r t n : String}
    {b : Node} (h : resolveRef c r = some (t, n, b)) : resolveBody c t n = some b := by
  rcases resolveRef_inv h with ⟨_, bucket, hc, hb⟩
  unfold resolveBody
  rw [hc]
  exact hb

theorem lookupA_addComponent (cl : List (String × List (String × Node)))
    (t n : String) (b : Node) (t2 : String) :
    lookupA (addComponent cl t n b) t2 =
      if t = t2 then some (insertA ((lookupA cl t).getD []) n b)
      else lookupA cl t2 := by
  unfold addComponent
  exact lookupA_insertA ..

theorem lookup2_addComponent (cl : List (String × List (String × Node)))
    (t n : String) (b : Node) (t2 n2 : String) :
    lookup2 (addComponent cl t n b) t2 n2 =
      if t2 = t ∧ n2 = n then some b else lookup2 cl t2 n2 := by
  unfold lookup2
  rw [lookupA_addComponent]
  by_cases ht : t = t2
  · rw [if_pos ht]
    subst ht
    show lookupA (insertA ((lookupA cl t).getD []) n b) n2 = _
    rw [lookupA_insertA]
    by_cases hn : n = n2
    · rw [if_pos hn, if_pos ⟨rfl, hn.symm⟩]
    · have hnn : ¬ (t = t ∧ n2 = n) := fun h2 => hn h2.2.symm
      rw [if_neg hn, if_neg hnn]
      cases hc : lookupA cl t with
      | none => simp [lookupA]
      | some bucket => simp
  · have ht2 : ¬ t2 = t := fun h2 => ht h2.symm
    have hnn : ¬ (t2 = t ∧ n2 = n) := fun h2 => ht2 h2.1
    rw [if_neg ht, if_neg hnn]

theorem scanEntries_cons {σ : Type} (hit : σ → String → σ) (st : σ) (key : String)
    (value : Node) (rest : List (String × Node)) :
    scanEntries hit st ((key, value) :: rest) =
      scanEntries hit
        (if key = "$ref" then
          (match value with
           | Node.str v => hit st v
           | _ => scanNode hit st value)
         else scanNode hit st value) rest := rfl

mutual

/-- Any predicate preserved by marking a reference processed (and, when it
resolves, storing its body) is an invariant of the whole fuelled recursion. -/
theorem processRef_pres (c : List (String × Node)) (P : CollectSt → Prop)
    (hstep : ∀ st ref, P st → ref ∉ st.processed →
       (resolveRef c ref = none → P ⟨insertS st.processed ref, st.closure⟩) ∧
       (∀ t n b, resolveRef c ref = some (t, n, b) →
          P ⟨insertS st.processed ref, addComponent st.closure t n b⟩)) :
    ∀ (fuel : Nat) (st : CollectSt) (ref : String), P st → P (processRef c fuel st ref)
  | fuel, st, ref, hP => by
      rw [processRef]
      by_cases hmem : ref ∈ st.processed
      · rw [if_pos hmem]
        exact hP
      · rw [if_neg hmem]
        cases hres : resolveRef c ref with
        | none =>
            simp only [hres]
            exact (hstep st ref hP hmem).1 hres
        | some tnb =>
            obtain ⟨t, n, body⟩ := tnb
            simp only [hres]
            cases fuel with
            | zero => exact (hstep st ref hP hmem).2 t n body hres
            | succ f =>
                exact scanNode_pres c P hstep f _ body
                  ((hstep st ref hP hmem).2 t n body hres)
termination_by fuel st ref hP => (fuel, 0)

theorem scanNode_pres (c : List (String × Node)) (P : CollectSt → Prop)
    (hstep : ∀ st ref, P st → ref ∉ st.processed →
       (resolveRef c ref = none → P ⟨insertS st.processed ref, st.closure⟩) ∧
       (∀ t n b, resolveRef c ref = some (t, n, b) →
          P ⟨insertS st.processed ref, addComponent st.closure t n b⟩)) :
    ∀ (fuel : Nat) (st : CollectSt) (node : Node), P st →
      P (scanNode (processRef c fuel) st node)
  | fuel, st, Node.obj entries, hP => by
      rw [scanNode]
      exact scanEntries_pres c P hstep fuel st entries hP
  | fuel, st, Node.arr items, hP => by
      rw [scanNode]
      exact scanItems_pres c P hstep fuel st items hP
  | fuel, st, Node.str s, hP => by
      simpa [scanNode] using hP
  | fuel, st, Node.atom, hP => by
      simpa [scanNode] using hP
termination_by fuel st node hP => (fuel, sizeOf node + 1)

theorem scanEntries_pres (c : List (String × Node)) (P : CollectSt → Prop)
    (hstep : ∀ st ref, P st → ref ∉ st.processed →
       (resolveRef c ref = none → P ⟨insertS st.processed ref, st.closure⟩) ∧
       (∀ t n b, resolveRef c ref = some (t, n, b) →
          P ⟨insertS st.processed ref, addComponent st.closure t n b⟩)) :
    ∀ (fuel : Nat) (st : CollectSt) (entries : List (String × Node)), P st →
      P (scanEntries (processRef c fuel) st entries)
  | fuel, st, [], hP => by
      rw [scanEntries]
      exact hP
  | fuel, st, (key, value) :: rest, hP => by
      rw [scanEntries_cons]
      refine scanEntries_pres c P hstep fuel _ rest ?_
      by_cases hk : key = "$ref"
      · rw [if_pos hk]
        cases value with
        | str v => exact processRef_pres c P hstep fuel st v hP
        | obj o => exact scanNode_pres c P hstep fuel st (Node.obj o) hP
        | arr a => exact scanNode_pres c P hstep fuel st (Node.arr a) hP
        | atom => exact scanNode_pres c P hstep fuel st Node.atom hP
      · rw [if_neg hk]
        exact scanNode_pres c P hstep fuel st value hP
termination_by fuel st entries hP => (fuel, sizeOf entries + 1)

theorem scanItems_pres (c : List (String × Node)) (P : CollectSt → Prop)
    (hstep : ∀ st ref, P st → ref ∉ st.processed →
       (resolveRef c ref = none → P ⟨insertS st.processed ref, st.closure⟩) ∧
       (∀ t n b, resolveRef c ref = some (t, n, b) →
          P ⟨insertS st.processed ref, addComponent st.closure t n b⟩)) :
    ∀ (fuel : Nat) (st : CollectSt) (items : List Node), P st →
      P (scanItems (processRef c fuel) st items)
  | fuel, st, [], hP => by
      rw [scanItems]
      exact hP
  | fuel, st, item :: rest, hP => by
      rw [scanItems]
      exact scanItems_pres c P hstep fuel _ rest
        (scanNode_pres c P hstep fuel st item hP)
termination_by fuel st items hP => (fuel, sizeOf items + 1)

end

/-- The reference strings `find_refs_in_object` fires on at one mapping entry
(before recursing into the remaining entries). -/
def entryHeadRefs (key : String) (value : Node) : List String :=
  if key = "$ref" then
    match value with
    | Node.str v => [v]
    | _ => nodeRefs value
  else nodeRefs value

theorem entryRefs_cons2 (key : String) (value : Node) (rest : List (String × Node)) :
    entryRefs ((key, value) :: rest) = entryHeadRefs key value ++ entryRefs rest := rfl

theorem entryRefs_cons (key : String) (value : Node) (rest : List (String × Node)) :
    entryRefs ((key, value) :: rest) =
      (if key = "$ref" then
        (match value with
         | Node.str v => [v]
         | _ => nodeRefs value)
       else nodeRefs value) ++ entryRefs rest := rfl

theorem itemRefs_cons (item : Node) (rest : List Node) :
    itemRefs (item :: rest) = nodeRefs item ++ itemRefs rest := rfl

theorem processed_mono_step (c : List (String × Node)) (x : String) :
    ∀ (st : CollectSt) (ref : String), x ∈ st.processed → ref ∉ st.processed →
      (resolveRef c ref = none →
        x ∈ (⟨insertS st.processed ref, st.closure⟩ : CollectSt).processed) ∧
      (∀ t n b, resolveRef c ref = some (t, n, b) →
        x ∈ (⟨insertS st.processed ref, addComponent st.closure t n b⟩ : CollectSt).processed) := by
  intro st ref hx _
  exact ⟨fun _ => insertS_subset hx, fun _ _ _ _ => insertS_subset hx⟩

theorem processRef_processed_mono (c : List (String × Node)) (fuel : Nat)
    (st : CollectSt) (ref x : String) (hx : x ∈ st.processed) :
    x ∈ (processRef c fuel st ref).processed :=
  processRef_pres c (fun s => x ∈ s.processed) (processed_mono_step c x) fuel st ref hx

theorem scanNode_processed_mono (c : List (String × Node)) (fuel : Nat)
    (st : CollectSt) (node : Node) (x : String) (hx : x ∈ st.processed) :
    x ∈ (scanNode (processRef c fuel) st node).processed :=
  scanNode_pres c (fun s => x ∈ s.processed) (processed_mono_step c x) fuel st node hx

theorem scanEntries_processed_mono (c : List (String × Node)) (fuel : Nat)
    (st : CollectSt) (entries : List (String × Node)) (x : String)
    (hx : x ∈ st.processed) :
    x ∈ (scanEntries (processRef c fuel) st entries).processed :=
  scanEntries_pres c (fun s => x ∈ s.processed) (processed_mono_step c x) fuel st entries hx

theorem scanItems_processed_mono (c : List (String × Node)) (fuel : Nat)
    (st : CollectSt) (items : List Node) (x : String) (hx : x ∈ st.processed) :
    x ∈ (scanItems (processRef c fuel) st items).processed :=
  scanItems_pres c (fun s => x ∈ s.processed) (processed_mono_step c x) fuel st items hx

theorem processRef_covers (c : List (String × Node)) (fuel : Nat) (st : CollectSt)
    (ref : String) : ref ∈ (processRef c fuel st ref).processed := by
  rw [processRef]
  by_cases hmem : ref ∈ st.processed
  · rw [if_pos hmem]
    exact hmem
  · rw [if_neg hmem]
    have hself : ref ∈ insertS st.processed ref := mem_insertS.mpr (Or.inr rfl)
    cases hres : resolveRef c ref with
    | none =>
        simp only [hres]
        exact hself
    | some tnb =>
        obtain ⟨t, n, body⟩ := tnb
        simp only [hres]
        cases fuel with
        | zero => exact hself
        | succ f => exact scanNode_processed_mono c f _ body ref hself

mutual

theorem scanNode_covers (c : List (String × Node)) (fuel : Nat) :
    ∀ (st : CollectSt) (node : Node) (r : String), r ∈ nodeRefs node →
      r ∈ (scanNode (processRef c fuel) st node).processed
  | st, Node.obj entries, r, hr => by
      rw [scanNode]
      rw [nodeRefs] at hr
      exact scanEntries_covers c fuel st entries r hr
  | st, Node.arr items, r, hr => by
      rw [scanNode]
      rw [nodeRefs] at hr
      exact scanItems_covers c fuel st items r hr
  | st, Node.str s, r, hr => by simp [nodeRefs] at hr
  | st, Node.atom, r, hr => by simp [nodeRefs] at hr

theorem scanEntries_covers (c : List (String × Node)) (fuel : Nat) :
    ∀ (st : CollectSt) (entries : List (String × Node)) (r : String),
      r ∈ entryRefs entries →
      r ∈ (scanEntries (processRef c fuel) st entries).processed
  | st, [], r, hr => by simp [entryRefs] at hr
  | st, (key, value) :: rest, r, hr => by
      rw [scanEntries_cons]
      rw [entryRefs_cons] at hr
      rcases List.mem_append.mp hr with hl | hl
      · refine scanEntries_processed_mono c fuel _ rest r ?_
        by_cases hk : key = "$ref"
        · rw [if_pos hk] at hl ⊢
          cases value with
          | str v =>
              rcases List.mem_singleton.mp hl with rfl
              exact processRef_covers c fuel st r
          | obj o => exact scanNode_covers c fuel st (Node.obj o) r hl
          | arr a => exact scanNode_covers c fuel st (Node.arr a) r hl
          | atom => exact scanNode_covers c fuel st Node.atom r hl
        · rw [if_neg hk] at hl ⊢
          exact scanNode_covers c fuel st value r hl
      · exact scanEntries_covers c fuel _ rest r hl

theorem scanItems_covers (c : List (String × Node)) (fuel : Nat) :
    ∀ (st : CollectSt) (items : List Node) (r : String), r ∈ itemRefs items →
      r ∈ (scanItems (processRef c fuel) st items).processed
  | st, [], r, hr => by simp [itemRefs] at hr
  | st, item :: rest, r, hr => by
      rw [scanItems]
      rw [itemRefs_cons] at hr
      rcases List.mem_append.mp hr with hl | hl
      · exact scanItems_processed_mono c fuel _ rest r
          (scanNode_covers c fuel st item r hl)
      · exact scanItems_covers c fuel _ rest r hl

end

theorem countNotIn_le_after_processRef (c : List (String × Node)) (U : List String)
    (fuel : Nat) (st : CollectSt) (ref : String) :
    countNotIn U (processRef c fuel st ref).processed ≤ countNotIn U st.processed :=
  countNotIn_mono U (fun x hx => processRef_processed_mono c fuel st ref x hx)

theorem countNotIn_le_after_scanNode (c : List (String × Node)) (U : List String)
    (fuel : Nat) (st : CollectSt) (node : Node) :
    countNotIn U (scanNode (processRef c fuel) st node).processed ≤
      countNotIn U st.processed :=
  countNotIn_mono U (fun x hx => scanNode_processed_mono c fuel st node x hx)

mutual

/-- One extra unit of fuel changes nothing once the fuel dominates the number
of universe references not yet processed: the fuelled recursion has reached
its fixpoint. -/
theorem processRef_fuel_succ (c : List (String × Node)) (U : List String)
    (HU : ∀ (r t n : String) (b : Node), resolveRef c r = some (t, n, b) →
      ∀ x ∈ nodeRefs b, x ∈ U) :
    ∀ (fuel : Nat) (st : CollectSt) (ref : String), ref ∈ U →
      countNotIn U st.processed ≤ fuel →
      processRef c (fuel + 1) st ref = processRef c fuel st ref
  | fuel, st, ref, hU, hcnt => by
      rw [processRef, processRef]
      by_cases hmem : ref ∈ st.processed
      · rw [if_pos hmem, if_pos hmem]
      · rw [if_neg hmem, if_neg hmem]
        cases hres : resolveRef c ref with
        | none => simp only [hres]
        | some tnb =>
            obtain ⟨t, n, body⟩ := tnb
            simp only [hres]
            cases fuel with
            | zero =>
                exfalso
                have := countNotIn_pos (l := st.processed) hU hmem
                omega
            | succ f =>
                have hcnt2 : countNotIn U (insertS st.processed ref) ≤ f := by
                  have hlt := @countNotIn_lt U st.processed
                    (insertS st.processed ref) ref hU hmem (fun y => mem_insertS)
                  omega
                exact scanNode_fuel_succ c U HU f
                  ⟨insertS st.processed ref, addComponent st.closure t n body⟩ body
                  (fun x hx => HU ref t n body hres x hx) hcnt2
termination_by fuel st ref hU hcnt => (fuel, 0)

theorem scanNode_fuel_succ (c : List (String × Node)) (U : List String)
    (HU : ∀ (r t n : String) (b : Node), resolveRef c r = some (t, n, b) →
      ∀ x ∈ nodeRefs b, x ∈ U) :
    ∀ (fuel : Nat) (st : CollectSt) (node : Node),
      (∀ x ∈ nodeRefs node, x ∈ U) → countNotIn U st.processed ≤ fuel →
      scanNode (processRef c (fuel + 1)) st node = scanNode (processRef c fuel) st node
  | fuel, st, Node.obj entries, hsub, hcnt => by
      rw [scanNode, scanNode]
      refine scanEntries_fuel_succ c U HU fuel st entries ?_ hcnt
      simpa [nodeRefs] using hsub
  | fuel, st, Node.arr items, hsub, hcnt => by
      rw [scanNode, scanNode]
      refine scanItems_fuel_succ c U HU fuel st items ?_ hcnt
      simpa [nodeRefs] using hsub
  | fuel, st, Node.str s, _, _ => by simp [scanNode]
  | fuel, st, Node.atom, _, _ => by simp [scanNode]
termination_by fuel st node hsub hcnt => (fuel, sizeOf node + 1)

theorem scanEntries_fuel_succ (c : List (String × Node)) (U : List String)
    (HU : ∀ (r t n : String) (b : Node), resolveRef c r = some (t, n, b) →
      ∀ x ∈ nodeRefs b, x ∈ U) :
    ∀ (fuel : Nat) (st : CollectSt) (entries : List (String × Node)),
      (∀ x ∈ entryRefs entries, x ∈ U) → countNotIn U st.processed ≤ fuel →
      scanEntries (processRef c (fuel + 1)) st entries =
        scanEntries (processRef c fuel) st entries
  | fuel, st, [], _, _ => rfl
  | fuel, st, (key, value) :: rest, hsub, hcnt => by
      rw [scanEntries_cons, scanEntries_cons]
      rw [entryRefs_cons2] at hsub
      have hsubhead : ∀ x ∈ entryHeadRefs key value, x ∈ U :=
        fun x hx => hsub x (List.mem_append.mpr (Or.inl hx))
      have hsubrest : ∀ x ∈ entryRefs rest, x ∈ U :=
        fun x hx => hsub x (List.mem_append.mpr (Or.inr hx))
      by_cases hk : key = "$ref"
      · rw [if_pos hk, if_pos hk]
        cases value with
        | str v =>
            have hvU : v ∈ U := hsubhead v (by simp [entryHeadRefs, hk])
            show scanEntries (processRef c (fuel + 1)) (processRef c (fuel + 1) st v) rest =
              scanEntries (processRef c fuel) (processRef c fuel st v) rest
            rw [processRef_fuel_succ c U HU fuel st v hvU hcnt]
            refine scanEntries_fuel_succ c U HU fuel _ rest hsubrest ?_
            have := countNotIn_le_after_processRef c U fuel st v
            omega
        | obj o =>
            have hoU : ∀ x ∈ nodeRefs (Node.obj o), x ∈ U := by
              intro x hx
              exact hsubhead x (by simpa [entryHeadRefs, hk] using hx)
            show scanEntries (processRef c (fuel + 1))
                (scanNode (processRef c (fuel + 1)) st (Node.obj o)) rest =
              scanEntries (processRef c fuel)
                (scanNode (processRef c fuel) st (Node.obj o)) rest
            rw [scanNode_fuel_succ c U HU fuel st (Node.obj o) hoU hcnt]
            refine scanEntries_fuel_succ c U HU fuel _ rest hsubrest ?_
            have := countNotIn_le_after_scanNode c U fuel st (Node.obj o)
            omega
        | arr a =>
            have hoU : ∀ x ∈ nodeRefs (Node.arr a), x ∈ U := by
              intro x hx
              exact hsubhead x (by simpa [entryHeadRefs, hk] using hx)
            show scanEntries (processRef c (fuel + 1))
                (scanNode (processRef c (fuel + 1)) st (Node.arr a)) rest =
              scanEntries (processRef c fuel)
                (scanNode (processRef c fuel) st (Node.arr a)) rest
            rw [scanNode_fuel_succ c U HU fuel st (Node.arr a) hoU hcnt]
            refine scanEntries_fuel_succ c U HU fuel _ rest hsubrest ?_
            have := countNotIn_le_after_scanNode c U fuel st (Node.arr a)
            omega
        | atom =>
            have hoU : ∀ x ∈ nodeRefs Node.atom, x ∈ U := by
              intro x hx
              exact hsubhead x (by simpa [entryHeadRefs, hk] using hx)
            show scanEntries (processRef c (fuel + 1))
                (scanNode (processRef c (fuel + 1)) st Node.atom) rest =
              scanEntries (processRef c fuel)
                (scanNode (processRef c fuel) st Node.atom) rest
            rw [scanNode_fuel_succ c U HU fuel st Node.atom hoU hcnt]
            refine scanEntries_fuel_succ c U HU fuel _ rest hsubrest ?_
            have := countNotIn_le_after_scanNode c U fuel st Node.atom
            omega
      · have hoU : ∀ x ∈ nodeRefs value, x ∈ U := by
          intro x hx
          exact hsubhead x (by simpa [entryHeadRefs, hk] using hx)
        rw [if_neg hk, if_neg hk]
        rw [scanNode_fuel_succ c U HU fuel st value hoU hcnt]
        refine scanEntries_fuel_succ c U HU fuel _ rest hsubrest ?_
        have := countNotIn_le_after_scanNode c U fuel st value
        omega
termination_by fuel st entries hsub hcnt => (fuel, sizeOf entries + 1)

theorem scanItems_fuel_succ (c : List (String × Node)) (U : List String)
    (HU : ∀ (r t n : String) (b : Node), resolveRef c r = some (t, n, b) →
      ∀ x ∈ nodeRefs b, x ∈ U) :
    ∀ (fuel : Nat) (st : CollectSt) (items : List Node),
      (∀ x ∈ itemRefs items, x ∈ U) → countNotIn U st.processed ≤ fuel →
      scanItems (processRef c (fuel + 1)) st items =
        scanItems (processRef c fuel) st items
  | fuel, st, [], _, _ => rfl
  | fuel, st, item :: rest, hsub, hcnt => by
      rw [scanItems, scanItems]
      rw [itemRefs_cons] at hsub
      have hsubhead : ∀ x ∈ nodeRefs item, x ∈ U :=
        fun x hx => hsub x (List.mem_append.mpr (Or.inl hx))
      have hsubrest : ∀ x ∈ itemRefs rest, x ∈ U :=
        fun x hx => hsub x (List.mem_append.mpr (Or.inr hx))
      rw [scanNode_fuel_succ c U HU fuel st item hsubhead hcnt]
      refine scanItems_fuel_succ c U HU fuel _ rest hsubrest ?_
      have := countNotIn_le_after_scanNode c U fuel st item
      omega
termination_by fuel st items hsub hcnt => (fuel, sizeOf items + 1)

end

theorem scanNode_fuel_ge (c : List (String × Node)) (U : List String)
    (HU : ∀ (r t n : String) (b : Node), resolveRef c r = some (t, n, b) →
      ∀ x ∈ nodeRefs b, x ∈ U) (f1 : Nat) :
    ∀ (f2 : Nat), f1 ≤ f2 → ∀ (st : CollectSt) (node : Node),
      (∀ x ∈ nodeRefs node, x ∈ U) → countNotIn U st.processed ≤ f1 →
      scanNode (processRef c f2) st node = scanNode (processRef c f1) st node := by
  intro f2 hle
  induction f2, hle using Nat.le_induction with
  | base => intro st node _ _; rfl
  | succ f2 hle ih =>
      intro st node hsub hcnt
      rw [scanNode_fuel_succ c U HU f2 st node hsub (by omega)]
      exact ih st node hsub hcnt

theorem nodeRefs_bucket_mem :
    ∀ (bucket : List (String × Node)) (n : String) (b : Node),
    lookupA bucket n = some b → ∀ x ∈ nodeRefs b, x ∈ entryRefs bucket := by
  intro bucket
  induction bucket with
  | nil => intro n b h; simp [lookupA] at h
  | cons kv rest ih =>
      obtain ⟨k, v⟩ := kv
      intro n b h x hx
      rw [entryRefs_cons2]
      by_cases hk : k = n
      · subst hk
        have hvb : v = b := by simpa [lookupA] using h
        subst hvb
        refine List.mem_append.mpr (Or.inl ?_)
        unfold entryHeadRefs
        by_cases href : k = "$ref"
        · rw [if_pos href]
          cases v with
          | str s => simp [nodeRefs] at hx
          | obj o => exact hx
          | arr a => exact hx
          | atom => exact hx
        · rw [if_neg href]
          exact hx
      · have h2 : lookupA rest n = some b := by simpa [lookupA, hk] using h
        exact List.mem_append.mpr (Or.inr (ih n b h2 x hx))

theorem mem_collectUniverse_entry {c extracted : List (String × Node)}
    {pm : String × Node} (hpm : pm ∈ extracted) {x : String}
    (hx : x ∈ nodeRefs pm.2) : x ∈ collectUniverse c extracted := by
  unfold collectUniverse
  rw [List.mem_dedup, List.mem_append]
  exact Or.inl (List.mem_flatten.mpr
    ⟨nodeRefs pm.2, List.mem_map.mpr ⟨pm, hpm, rfl⟩, hx⟩)

theorem collect_HU (c extracted : List (String × Node)) :
    ∀ (r t n : String) (b : Node), resolveRef c r = some (t, n, b) →
      ∀ x ∈ nodeRefs b, x ∈ collectUniverse c extracted := by
  intro r t n b h x hx
  rcases resolveRef_inv h with ⟨_, bucket, hc, hb⟩
  have hbx : x ∈ entryRefs bucket := nodeRefs_bucket_mem bucket n b hb x hx
  unfold collectUniverse
  rw [List.mem_dedup, List.mem_append]
  refine Or.inr (List.mem_flatten.mpr
    ⟨nodeRefs (Node.obj bucket), List.mem_map.mpr ⟨(t, Node.obj bucket), lookupA_mem hc, rfl⟩, ?_⟩)
  rw [nodeRefs]
  exact hbx

/-- C2's termination content: the closure computation is independent of the
fuel once the fuel reaches `collectFuel`; the recursion has terminated at its
fixpoint within the allotted bound. -/
theorem collectRefsFuel_stable (c extracted : List (String × Node)) (fuel : Nat)
    (h : collectFuel c extracted ≤ fuel) :
    collectRefsFuel c extracted fuel =
      collectRefsFuel c extracted (collectFuel c extracted) := by
  unfold collectRefsFuel
  suffices hgen : ∀ (l : List (String × Node)) (st : CollectSt),
      (∀ pm ∈ l, pm ∈ extracted) →
      l.foldl (fun st pm => findRefs c fuel st pm.2) st =
        l.foldl (fun st pm => findRefs c (collectFuel c extracted) st pm.2) st from
    hgen extracted ⟨[], initialClosure⟩ (fun pm hpm => hpm)
  intro l
  induction l with
  | nil => intro st _; rfl
  | cons pm rest ih =>
      intro st hsub
      rw [List.foldl_cons, List.foldl_cons]
      have hstep : findRefs c fuel st pm.2 = findRefs c (collectFuel c extracted) st pm.2 := by
        unfold findRefs
        refine scanNode_fuel_ge c (collectUniverse c extracted)
          (collect_HU c extracted) (collectFuel c extracted) fuel h st pm.2 ?_ ?_
        · intro x hx
          exact mem_collectUniverse_entry (hsub pm (List.mem_cons_self _ _)) hx
        · have := countNotIn_le_length (collectUniverse c extracted) st.processed
          unfold collectFuel
          omega
      rw [hstep]
      exact ih _ (fun q hq => hsub q (List.mem_cons_of_mem _ hq))

/-- Well-formedness of the closure dict: type keys are distinct and every
bucket's component names are distinct (both are Python dicts). -/
def ClosWF (st : CollectSt) : Prop :=
  (st.closure.map Prod.fst).Nodup ∧ ∀ tb ∈ st.closure, (tb.2.map Prod.fst).Nodup

theorem closWF_addComponent {cl : List (String × List (String × Node))}
    (t n : String) (b : Node)
    (h : (cl.map Prod.fst).Nodup ∧ ∀ tb ∈ cl, (tb.2.map Prod.fst).Nodup) :
    ((addComponent cl t n b).map Prod.fst).Nodup ∧
      ∀ tb ∈ addComponent cl t n b, (tb.2.map Prod.fst).Nodup := by
  constructor
  · unfold addComponent
    exact nodup_keys_insertA h.1
  · intro tb htb
    unfold addComponent at htb
    rcases mem_insertA htb with h2 | h2
    · exact h.2 tb h2
    · subst h2
      refine nodup_keys_insertA ?_
      cases hl : lookupA cl t with
      | none => simp
      | some bucket =>
          rw [Option.getD_some]
          exact h.2 (t, bucket) (lookupA_mem hl)

theorem closWF_step (c : List (String × Node)) :
    ∀ (st : CollectSt) (ref : String), ClosWF st → ref ∉ st.processed →
      (resolveRef c ref = none →
        ClosWF ⟨insertS st.processed ref, st.closure⟩) ∧
      (∀ t n b, resolveRef c ref = some (t, n, b) →
        ClosWF ⟨insertS st.processed ref, addComponent st.closure t n b⟩) := by
  intro st ref hwf _
  exact ⟨fun _ => hwf, fun t n b _ => closWF_addComponent t n b hwf⟩

/-- Any invariant of the recursion holds of the state after the whole
entry-path scan. -/
theorem collectRefsFuel_pres (c : List (String × Node)) (P : CollectSt → Prop)
    (hstep : ∀ st ref, P st → ref ∉ st.processed →
       (resolveRef c ref = none → P ⟨insertS st.processed ref, st.closure⟩) ∧
       (∀ t n b, resolveRef c ref = some (t, n, b) →
          P ⟨insertS st.processed ref, addComponent st.closure t n b⟩))
    (extracted : List (String × Node)) (fuel : Nat)
    (hinit : P ⟨[], initialClosure⟩) : P (collectRefsFuel c extracted fuel) := by
  unfold collectRefsFuel
  suffices hgen : ∀ (l : List (String × Node)) (st : CollectSt), P st →
      P (l.foldl (fun st pm => findRefs c fuel st pm.2) st) from
    hgen extracted ⟨[], initialClosure⟩ hinit
  intro l
  induction l with
  | nil => intro st hP; exact hP
  | cons pm rest ih =>
      intro st hP
      rw [List.foldl_cons]
      exact ih _ (scanNode_pres c P hstep fuel st pm.2 hP)

theorem collectRefsFuel_closWF (c extracted : List (String × Node)) (fuel : Nat) :
    ClosWF (collectRefsFuel c extracted fuel) :=
  collectRefsFuel_pres c ClosWF (closWF_step c) extracted fuel
    ⟨by decide, by decide⟩

theorem sortAList_keys_nodup {bucket : List (String × Node)}
    (h : (bucket.map Prod.fst).Nodup) : ((sortAList bucket).map Prod.fst).Nodup :=
  (((sortAList_perm bucket).map Prod.fst).nodup_iff).mpr h

theorem collect_bucket_keys_nodup (api_spec : Node) (extracted : List (String × Node)) :
    ∀ tb ∈ collect_referenced_components api_spec extracted, (tb.2.map Prod.fst).Nodup := by
  intro tb htb
  unfold collect_referenced_components cleanupClosure at htb
  rcases List.mem_map.mp htb with ⟨tb2, htb2, rfl⟩
  have hwf := collectRefsFuel_closWF (componentsOf api_spec) extracted
    (collectFuel (componentsOf api_spec) extracted)
  exact sortAList_keys_nodup (hwf.2 tb2 (List.mem_filter.mp htb2).1)

/-- The cyclic two-component document of the spec's testable property:
schema `A` references `B` and `B` references `A`. -/
def cyclicSpec : Node :=
  Node.obj [("components", Node.obj [("schemas", Node.obj
    [("A", Node.obj [("properties", Node.obj
       [("b", Node.obj [("$ref", Node.str "#/components/schemas/B")])])]),
     ("B", Node.obj [("properties", Node.obj
       [("a", Node.obj [("$ref", Node.str "#/components/schemas/A")])])])])])]

/-- An extracted path set whose single operation references schema `A`. -/
def cyclicEntry : List (String × Node) :=
  [("/p", Node.obj [("get", Node.obj [("$ref", Node.str "#/components/schemas/A")])])]

/-- C2.  Closure termination on cyclic input: the fuelled recursion of
`collect_referenced_components` reaches its fixpoint within the supplied fuel
on every input (more fuel never changes the result), every output bucket
lists each component name at most once, and on the concrete cyclic document
(`A` references `B`, `B` references `A`, both reachable from the entry set)
the closure contains exactly the two schemas, each exactly once. -/
theorem closure_terminates_on_cycles :
    (∀ (c extracted : List (String × Node)) (fuel : Nat),
      collectFuel c extracted ≤ fuel →
      collectRefsFuel c extracted fuel =
        collectRefsFuel c extracted (collectFuel c extracted)) ∧
    (∀ (api_spec : Node) (extracted : List (String × Node)),
      ∀ tb ∈ collect_referenced_components api_spec extracted,
        (tb.2.map Prod.fst).Nodup) ∧
    ((collect_referenced_components cyclicSpec cyclicEntry).map
        (fun tb => (tb.1, tb.2.map Prod.fst)) = [("schemas", ["A", "B"])] ∧
     ((collect_referenced_components cyclicSpec cyclicEntry).map
        (fun tb => tb.2.map Prod.fst)).flatten.count "A" = 1 ∧
     ((collect_referenced_components cyclicSpec cyclicEntry).map
        (fun tb => tb.2.map Prod.fst)).flatten.count "B" = 1) :=
  ⟨collectRefsFuel_stable, collect_bucket_keys_nodup, by decide, by decide, by decide⟩

theorem closure_terminates_on_cycles_witness :
    collectFuel [] [] ≤ 5 ∧
    collectRefsFuel [] [] 5 = collectRefsFuel [] [] (collectFuel [] []) :=
  ⟨by decide, closure_terminates_on_cycles.1 [] [] 5 (by decide)⟩

/-- C9.  Deterministic, idempotent closure output: the closure builder is a
pure function of its inputs (two runs are equal), every type bucket of its
output is sorted by component name (Python's code-point string order), and
empty type buckets are omitted (every bucket present is non-empty). -/
theorem closure_output_sorted_deterministic :
    (∀ (api_spec : Node) (extracted : List (String × Node)),
      collect_referenced_components api_spec extracted =
        collect_referenced_components api_spec extracted) ∧
    (∀ (api_spec : Node) (extracted : List (String × Node)),
      ∀ tb ∈ collect_referenced_components api_spec extracted,
        tb.2.Pairwise keyLe ∧ tb.2 ≠ []) := by
  refine ⟨fun _ _ => rfl, ?_⟩
  intro api extracted tb htb
  unfold collect_referenced_components cleanupClosure at htb
  rcases List.mem_map.mp htb with ⟨tb2, htb2, rfl⟩
  have hne : ¬ tb2.2.isEmpty = true := by
    have := (List.mem_filter.mp htb2).2
    simpa using this
  refine ⟨pairwise_sortAList tb2.2, ?_⟩
  intro hnil
  have hnil' : sortAList tb2.2 = [] := hnil
  have hlen := (sortAList_perm tb2.2).length_eq
  rw [hnil'] at hlen
  have : tb2.2 = [] := List.length_eq_zero.mp hlen.symm
  rw [this] at hne
  exact hne rfl

theorem closure_output_sorted_deterministic_witness :
    (("schemas",
      [("A", Node.obj [("properties", Node.obj
         [("b", Node.obj [("$ref", Node.str "#/components/schemas/B")])])]),
       ("B", Node.obj [("properties", Node.obj
         [("a", Node.obj [("$ref", Node.str "#/components/schemas/A")])])])])
        ∈ collect_referenced_components cyclicSpec cyclicEntry) ∧
    (("schemas",
      [("A", Node.obj [("properties", Node.obj
         [("b", Node.obj [("$ref", Node.str "#/components/schemas/B")])])]),
       ("B", Node.obj [("properties", Node.obj
         [("a", Node.obj [("$ref", Node.str "#/components/schemas/A")])])])]) :
        String × List (String × Node)).2.Pairwise keyLe ∧
    (("schemas",
      [("A", Node.obj [("properties", Node.obj
         [("b", Node.obj [("$ref", Node.str "#/components/schemas/B")])])]),
       ("B", Node.obj [("properties", Node.obj
         [("a", Node.obj [("$ref", Node.str "#/components/schemas/A")])])])]) :
        String × List (String × Node)).2 ≠ [] :=
  ⟨by decide,
   (closure_output_sorted_deterministic.2 cyclicSpec cyclicEntry _ (by decide)).1,
   (closure_output_sorted_deterministic.2 cyclicSpec cyclicEntry _ (by decide)).2⟩

/-! ## Closure completeness (C1)

After the collector finishes with sufficient fuel, every reference inside any
stored component body has itself been processed.  The mutual block below
threads a pending list `P` of references whose processing is still queued in
enclosing frames; at the top level the pending list is empty. -/

theorem scannedExcept_mono {st : CollectSt} {P Q : List String}
    (hPQ : ∀ x ∈ P, x ∈ Q) (h : ScannedExcept st P) : ScannedExcept st Q := by
  intro t n b hb r hr
  rcases h t n b hb r hr with hp | hp
  · exact Or.inl hp
  · exact Or.inr (hPQ r hp)

mutual

/-- After `process_ref(ref)` runs with fuel dominating the unprocessed part of
the universe, every reference inside any stored body is processed or pending. -/
theorem processRef_scanned (c : List (String × Node)) (U : List String)
    (HU : ∀ (r t n : String) (b : Node), resolveRef c r = some (t, n, b) →
      ∀ x ∈ nodeRefs b, x ∈ U) :
    ∀ (fuel : Nat) (st : CollectSt) (ref : String) (P : List String), ref ∈ U →
      countNotIn U st.processed ≤ fuel → ScannedExcept st (ref :: P) →
      ScannedExcept (processRef c fuel st ref) P
  | fuel, st, ref, P, hU, hcnt, hsc => by
      rw [processRef]
      by_cases hmem : ref ∈ st.processed
      · rw [if_pos hmem]
        intro t n b hb r hr
        rcases hsc t n b hb r hr with hp | hp
        · exact Or.inl hp
        · rcases List.mem_cons.mp hp with he | hp2
          · refine Or.inl ?_
            rw [he]
            exact hmem
          · exact Or.inr hp2
      · rw [if_neg hmem]
        cases hres : resolveRef c ref with
        | none =>
            simp only [hres]
            intro t n b hb r hr
            rcases hsc t n b hb r hr with hp | hp
            · exact Or.inl (insertS_subset hp)
            · rcases List.mem_cons.mp hp with he | hp2
              · refine Or.inl ?_
                show r ∈ insertS st.processed ref
                rw [he]
                exact mem_insertS.mpr (Or.inr rfl)
              · exact Or.inr hp2
        | some tnb =>
            obtain ⟨t, n, body⟩ := tnb
            simp only [hres]
            cases fuel with
            | zero =>
                exfalso
                have := countNotIn_pos (l := st.processed) hU hmem
                omega
            | succ f =>
                have hcnt2 : countNotIn U (insertS st.processed ref) ≤ f := by
                  have hlt := @countNotIn_lt U st.processed
                    (insertS st.processed ref) ref hU hmem (fun y => mem_insertS)
                  omega
                refine scanNode_scanned c U HU f
                  ⟨insertS st.processed ref, addComponent st.closure t n body⟩ body P
                  (fun x hx => HU ref t n body hres x hx) hcnt2 ?_
                intro t2 n2 b2 hb2 r hr
                have hb3 : lookup2 (addComponent st.closure t n body) t2 n2 = some b2 := hb2
                rw [lookup2_addComponent] at hb3
                by_cases hcond : t2 = t ∧ n2 = n
                · rw [if_pos hcond] at hb3
                  have hbe : body = b2 := Option.some.inj hb3
                  refine Or.inr (List.mem_append.mpr (Or.inl ?_))
                  rw [hbe]
                  exact hr
                · rw [if_neg hcond] at hb3
                  rcases hsc t2 n2 b2 hb3 r hr with hp | hp
                  · exact Or.inl (insertS_subset hp)
                  · rcases List.mem_cons.mp hp with he | hp2
                    · refine Or.inl ?_
                      show r ∈ insertS st.processed ref
                      rw [he]
                      exact mem_insertS.mpr (Or.inr rfl)
                    · exact Or.inr (List.mem_append.mpr (Or.inr hp2))
termination_by fuel st ref P hU hcnt hsc => (fuel, 0)

theorem scanNode_scanned (c : List (String × Node)) (U : List String)
    (HU : ∀ (r t n : String) (b : Node), resolveRef c r = some (t, n, b) →
      ∀ x ∈ nodeRefs b, x ∈ U) :
    ∀ (fuel : Nat) (st : CollectSt) (node : Node) (P : List String),
      (∀ x ∈ nodeRefs node, x ∈ U) → countNotIn U st.processed ≤ fuel →
      ScannedExcept st (nodeRefs node ++ P) →
      ScannedExcept (scanNode (processRef c fuel) st node) P
  | fuel, st, Node.obj entries, P, hsub, hcnt, hsc => by
      rw [scanNode]
      refine scanEntries_scanned c U HU fuel st entries P ?_ hcnt hsc
      simpa [nodeRefs] using hsub
  | fuel, st, Node.arr items, P, hsub, hcnt, hsc => by
      rw [scanNode]
      refine scanItems_scanned c U HU fuel st items P ?_ hcnt hsc
      simpa [nodeRefs] using hsub
  | fuel, st, Node.str s, P, hsub, hcnt, hsc => by
      have hsc2 : ScannedExcept st P := hsc
      simpa [scanNode] using hsc2
  | fuel, st, Node.atom, P, hsub, hcnt, hsc => by
      have hsc2 : ScannedExcept st P := hsc
      simpa [scanNode] using hsc2
termination_by fuel st node P hsub hcnt hsc => (fuel, sizeOf node + 1)

theorem scanEntries_scanned (c : List (String × Node)) (U : List String)
    (HU : ∀ (r t n : String) (b : Node), resolveRef c r = some (t, n, b) →
      ∀ x ∈ nodeRefs b, x ∈ U) :
    ∀ (fuel : Nat) (st : CollectSt) (entries : List (String × Node)) (P : List String),
      (∀ x ∈ entryRefs entries, x ∈ U) → countNotIn U st.processed ≤ fuel →
      ScannedExcept st (entryRefs entries ++ P) →
      ScannedExcept (scanEntries (processRef c fuel) st entries) P
  | fuel, st, [], P, _, _, hsc => by
      rw [scanEntries]
      exact hsc
  | fuel, st, (key, value) :: rest, P, hsub, hcnt, hsc => by
      rw [scanEntries_cons]
      rw [entryRefs_cons2] at hsub
      rw [entryRefs_cons2, List.append_assoc] at hsc
      have hsubhead : ∀ x ∈ entryHeadRefs key value, x ∈ U :=
        fun x hx => hsub x (List.mem_append.mpr (Or.inl hx))
      have hsubrest : ∀ x ∈ entryRefs rest, x ∈ U :=
        fun x hx => hsub x (List.mem_append.mpr (Or.inr hx))
      by_cases hk : key = "$ref"
      · rw [if_pos hk]
        cases value with
        | str v =>
            have hvU : v ∈ U := hsubhead v (by simp [entryHeadRefs, hk])
            have hhead : entryHeadRefs key (Node.str v) = [v] := by
              simp [entryHeadRefs, hk]
            rw [hhead] at hsc
            show ScannedExcept
              (scanEntries (processRef c fuel) (processRef c fuel st v) rest) P
            refine scanEntries_scanned c U HU fuel _ rest P hsubrest ?_ ?_
            · have := countNotIn_le_after_processRef c U fuel st v
              omega
            · exact processRef_scanned c U HU fuel st v (entryRefs rest ++ P) hvU hcnt hsc
        | obj o =>
            have hhead : entryHeadRefs key (Node.obj o) = nodeRefs (Node.obj o) := by
              simp [entryHeadRefs, hk]
            rw [hhead] at hsc
            have hoU : ∀ x ∈ nodeRefs (Node.obj o), x ∈ U := by
              intro x hx
              exact hsubhead x (by simpa [entryHeadRefs, hk] using hx)
            show ScannedExcept (scanEntries (processRef c fuel)
              (scanNode (processRef c fuel) st (Node.obj o)) rest) P
            refine scanEntries_scanned c U HU fuel _ rest P hsubrest ?_ ?_
            · have := countNotIn_le_after_scanNode c U fuel st (Node.obj o)
              omega
            · exact scanNode_scanned c U HU fuel st (Node.obj o)
                (entryRefs rest ++ P) hoU hcnt hsc
        | arr a =>
            have hhead : entryHeadRefs key (Node.arr a) = nodeRefs (Node.arr a) := by
              simp [entryHeadRefs, hk]
            rw [hhead] at hsc
            have hoU : ∀ x ∈ nodeRefs (Node.arr a), x ∈ U := by
              intro x hx
              exact hsubhead x (by simpa [entryHeadRefs, hk] using hx)
            show ScannedExcept (scanEntries (processRef c fuel)
              (scanNode (processRef c fuel) st (Node.arr a)) rest) P
            refine scanEntries_scanned c U HU fuel _ rest P hsubrest ?_ ?_
            · have := countNotIn_le_after_scanNode c U fuel st (Node.arr a)
              omega
            · exact scanNode_scanned c U HU fuel st (Node.arr a)
                (entryRefs rest ++ P) hoU hcnt hsc
        | atom =>
            have hhead : entryHeadRefs key Node.atom = nodeRefs Node.atom := by
              simp [entryHeadRefs, hk]
            rw [hhead] at hsc
            have hoU : ∀ x ∈ nodeRefs Node.atom, x ∈ U := by
              intro x hx
              exact hsubhead x (by simpa [entryHeadRefs, hk] using hx)
            show ScannedExcept (scanEntries (processRef c fuel)
              (scanNode (processRef c fuel) st Node.atom) rest) P
            refine scanEntries_scanned c U HU fuel _ rest P hsubrest ?_ ?_
            · have := countNotIn_le_after_scanNode c U fuel st Node.atom
              omega
            · exact scanNode_scanned c U HU fuel st Node.atom
                (entryRefs rest ++ P) hoU hcnt hsc
      · rw [if_neg hk]
        have hhead : entryHeadRefs key value = nodeRefs value := by
          simp [entryHeadRefs, hk]
        rw [hhead] at hsc
        have hoU : ∀ x ∈ nodeRefs value, x ∈ U := by
          intro x hx
          exact hsubhead x (by simpa [entryHeadRefs, hk] using hx)
        refine scanEntries_scanned c U HU fuel _ rest P hsubrest ?_ ?_
        · have := countNotIn_le_after_scanNode c U fuel st value
          omega
        · exact scanNode_scanned c U HU fuel st value (entryRefs rest ++ P) hoU hcnt hsc
termination_by fuel st entries P hsub hcnt hsc => (fuel, sizeOf entries + 1)

theorem scanItems_scanned (c : List (String × Node)) (U : List String)
    (HU : ∀ (r t n : String) (b : Node), resolveRef c r = some (t, n, b) →
      ∀ x ∈ nodeRefs b, x ∈ U) :
    ∀ (fuel : Nat) (st : CollectSt) (items : List Node) (P : List String),
      (∀ x ∈ itemRefs items, x ∈ U) → countNotIn U st.processed ≤ fuel →
      ScannedExcept st (itemRefs items ++ P) →
      ScannedExcept (scanItems (processRef c fuel) st items) P
  | fuel, st, [], P, _, _, hsc => by
      rw [scanItems]
      exact hsc
  | fuel, st, item :: rest, P, hsub, hcnt, hsc => by
      rw [scanItems]
      rw [itemRefs_cons] at hsub
      rw [itemRefs_cons, List.append_assoc] at hsc
      have hsubhead : ∀ x ∈ nodeRefs item, x ∈ U :=
        fun x hx => hsub x (List.mem_append.mpr (Or.inl hx))
      have hsubrest : ∀ x ∈ itemRefs rest, x ∈ U :=
        fun x hx => hsub x (List.mem_append.mpr (Or.inr hx))
      refine scanItems_scanned c U HU fuel _ rest P hsubrest ?_ ?_
      · have := countNotIn_le_after_scanNode c U fuel st item
        omega
      · exact scanNode_scanned c U HU fuel st item (itemRefs rest ++ P) hsubhead hcnt hsc
termination_by fuel st items P hsub hcnt hsc => (fuel, sizeOf items + 1)

end

/-- The invariant `I2` (every processed reference that resolves has its body
stored) is preserved by the collector's two state updates. -/
theorem i2_step (c : List (String × Node)) :
    ∀ (st : CollectSt) (ref : String), I2 c st → ref ∉ st.processed →
      (resolveRef c ref = none → I2 c ⟨insertS st.processed ref, st.closure⟩) ∧
      (∀ t n b, resolveRef c ref = some (t, n, b) →
        I2 c ⟨insertS st.processed ref, addComponent st.closure t n b⟩) := by
  intro st ref hI2 hmem
  constructor
  · intro hnone r hr t n b hres
    rcases mem_insertS.mp hr with hrp | hre
    · exact hI2 r hrp t n b hres
    · rw [hre] at hres
      rw [hres] at hnone
      exact Option.noConfusion hnone
  · intro t n b hres r hr t2 n2 b2 hres2
    show lookup2 (addComponent st.closure t n b) t2 n2 = some b2
    rw [lookup2_addComponent]
    by_cases hcond : t2 = t ∧ n2 = n
    · rw [if_pos hcond]
      obtain ⟨rfl, rfl⟩ := hcond
      have h1 := resolveBody_of_resolveRef hres
      have h2 := resolveBody_of_resolveRef hres2
      rw [h1] at h2
      exact h2
    · rw [if_neg hcond]
      rcases mem_insertS.mp hr with hrp | hre
      · exact hI2 r hrp t2 n2 b2 hres2
      · rw [hre] at hres2
        rw [hres] at hres2
        simp only [Option.some.injEq, Prod.mk.injEq] at hres2
        exact absurd ⟨hres2.1.symm, hres2.2.1.symm⟩ hcond

theorem collectRefsFuel_I2 (c extracted : List (String × Node)) (fuel : Nat) :
    I2 c (collectRefsFuel c extracted fuel) :=
  collectRefsFuel_pres c (I2 c) (i2_step c) extracted fuel
    (fun r hr => absurd hr (List.not_mem_nil r))

/-- The initial `referenced_components` dict stores nothing: all four type
buckets are empty. -/
theorem lookup2_initialClosure (t n : String) : lookup2 initialClosure t n = none := by
  unfold lookup2
  cases h : lookupA initialClosure t with
  | none => rfl
  | some bucket =>
      have hmem := lookupA_mem h
      have hball : ∀ tb ∈ initialClosure, tb.2 = ([] : List (String × Node)) := by decide
      have hb : bucket = [] := hball (t, bucket) hmem
      rw [hb]
      rfl

theorem scannedExcept_init : ScannedExcept ⟨[], initialClosure⟩ [] := by
  intro t n b hb r _
  have hb2 : lookup2 initialClosure t n = some b := hb
  rw [lookup2_initialClosure] at hb2
  exact Option.noConfusion hb2

/-- After the whole entry-path scan at the fuel actually supplied, every
reference inside any stored body has been processed. -/
theorem collectRefsFuel_scanned (c extracted : List (String × Node)) :
    ScannedExcept (collectRefsFuel c extracted (collectFuel c extracted)) [] := by
  unfold collectRefsFuel
  have hgen : ∀ (l : List (String × Node)) (st : CollectSt),
      (∀ pm ∈ l, pm ∈ extracted) → ScannedExcept st [] →
      ScannedExcept
        (l.foldl (fun st pm => findRefs c (collectFuel c extracted) st pm.2) st) [] := by
    intro l
    induction l with
    | nil => intro st _ h; exact h
    | cons pm rest ih =>
        intro st hsub hst
        rw [List.foldl_cons]
        refine ih _ (fun q hq => hsub q (List.mem_cons_of_mem _ hq)) ?_
        show ScannedExcept (scanNode (processRef c (collectFuel c extracted)) st pm.2) []
        refine scanNode_scanned c (collectUniverse c extracted) (collect_HU c extracted)
          (collectFuel c extracted) st pm.2 [] ?_ ?_ ?_
        · intro x hx
          exact mem_collectUniverse_entry (hsub pm (List.mem_cons_self _ _)) hx
        · have := countNotIn_le_length (collectUniverse c extracted) st.processed
          unfold collectFuel
          omega
        · exact scannedExcept_mono (fun x hx => absurd hx (List.not_mem_nil x)) hst
  exact hgen extracted ⟨[], initialClosure⟩ (fun pm hpm => hpm) scannedExcept_init

/-- Every reference occurring directly in an extracted path's operations is
processed by the end of the entry-path scan. -/
theorem collectRefsFuel_entry_covers (c extracted : List (String × Node)) (fuel : Nat) :
    ∀ pm ∈ extracted, ∀ r ∈ nodeRefs pm.2,
      r ∈ (collectRefsFuel c extracted fuel).processed := by
  unfold collectRefsFuel
  have hmono : ∀ (l : List (String × Node)) (st : CollectSt) (r : String),
      r ∈ st.processed →
      r ∈ (l.foldl (fun st pm => findRefs c fuel st pm.2) st).processed := by
    intro l
    induction l with
    | nil => intro st r h; exact h
    | cons pm rest ih =>
        intro st r h
        rw [List.foldl_cons]
        exact ih _ r (scanNode_processed_mono c fuel st pm.2 r h)
  have hgen : ∀ (l : List (String × Node)) (st : CollectSt) (pm : String × Node),
      pm ∈ l → ∀ r ∈ nodeRefs pm.2,
      r ∈ (l.foldl (fun st pm => findRefs c fuel st pm.2) st).processed := by
    intro l
    induction l with
    | nil =>
        intro st pm hpm
        exact absurd hpm (List.not_mem_nil pm)
    | cons q rest ih =>
        intro st pm hpm r hr
        rw [List.foldl_cons]
        rcases List.mem_cons.mp hpm with he | hm
        · rw [he] at hr
          exact hmono rest _ r (scanNode_covers c fuel st q.2 r hr)
        · exact ih _ pm hm r hr
  exact hgen extracted ⟨[], initialClosure⟩

/-- Under distinct keys, association-list membership determines lookup. -/
theorem lookupA_of_mem_nodup {α : Type} :
    ∀ {l : List (String × α)} {k : String} {v : α},
      (l.map Prod.fst).Nodup → (k, v) ∈ l → lookupA l k = some v := by
  intro l
  induction l with
  | nil =>
      intro k v _ hm
      exact absurd hm (List.not_mem_nil _)
  | cons p rest ih =>
      intro k v hnd hm
      obtain ⟨k2, v2⟩ := p
      rw [List.map_cons] at hnd
      rcases List.mem_cons.mp hm with he | hm2
      · injection he with h1 h2
        rw [← h1, ← h2]
        show lookupA ((k, v) :: rest) k = some v
        simp [lookupA]
      · have hk2 : ¬ k2 = k := by
          intro he2
          rw [he2] at hnd
          have : k ∈ rest.map Prod.fst := List.mem_map.mpr ⟨(k, v), hm2, rfl⟩
          exact (List.nodup_cons.mp hnd).1 this
        show lookupA ((k2, v2) :: rest) k = some v
        simp only [lookupA, if_neg hk2]
        exact ih (List.nodup_cons.mp hnd).2 hm2

/-- Lookup through the sorting pass of the cleanup loop. -/
theorem lookupA_map_sort (cl : List (String × List (String × Node))) (t : String) :
    lookupA (cl.map (fun tb => (tb.1, sortAList tb.2))) t =
      (lookupA cl t).map sortAList := by
  induction cl with
  | nil => rfl
  | cons tb rest ih =>
      obtain ⟨t2, bucket⟩ := tb
      by_cases ht : t2 = t
      · simp [lookupA, ht]
      · simp [lookupA, ht, ih]

/-- Lookup through the empty-bucket filter of the cleanup loop. -/
theorem lookupA_filter {α : Type} {cl : List (String × α)} {t : String} {v : α}
    (hnd : (cl.map Prod.fst).Nodup) (p : String × α → Bool)
    (h : lookupA cl t = some v) (hp : p (t, v) = true) :
    lookupA (cl.filter p) t = some v := by
  have hm : (t, v) ∈ cl := lookupA_mem h
  have hm2 : (t, v) ∈ cl.filter p := List.mem_filter.mpr ⟨hm, hp⟩
  have hsub : List.Sublist ((cl.filter p).map Prod.fst) (cl.map Prod.fst) :=
    (List.filter_sublist cl).map Prod.fst
  exact lookupA_of_mem_nodup (hnd.sublist hsub) hm2

/-- The cleanup pass (drop empty buckets, sort the rest) neither loses nor
invents stored components: two-level lookup is unchanged. -/
theorem lookup2_cleanup_iff {cl : List (String × List (String × Node))}
    (hnd : (cl.map Prod.fst).Nodup)
    (hbk : ∀ tb ∈ cl, (tb.2.map Prod.fst).Nodup)
    (t n : String) (b : Node) :
    lookup2 (cleanupClosure cl) t n = some b ↔ lookup2 cl t n = some b := by
  constructor
  · intro h
    unfold cleanupClosure at h
    unfold lookup2 at h ⊢
    rw [lookupA_map_sort] at h
    cases hf : lookupA (cl.filter (fun tb => !tb.2.isEmpty)) t with
    | none =>
        rw [hf] at h
        exact Option.noConfusion h
    | some bucket =>
        rw [hf] at h
        have h2 : lookupA (sortAList bucket) n = some b := h
        have hmem : (t, bucket) ∈ cl.filter (fun tb => !tb.2.isEmpty) := lookupA_mem hf
        have hmemcl : (t, bucket) ∈ cl := (List.mem_filter.mp hmem).1
        have hla : lookupA cl t = some bucket := lookupA_of_mem_nodup hnd hmemcl
        rw [hla]
        show lookupA bucket n = some b
        have hmb : (n, b) ∈ sortAList bucket := lookupA_mem h2
        have hmb2 : (n, b) ∈ bucket := (sortAList_perm bucket).mem_iff.mp hmb
        exact lookupA_of_mem_nodup (hbk (t, bucket) hmemcl) hmb2
  · intro h
    unfold lookup2 at h
    cases hla : lookupA cl t with
    | none =>
        rw [hla] at h
        exact Option.noConfusion h
    | some bucket =>
        rw [hla] at h
        have h2 : lookupA bucket n = some b := h
        have hne : (fun tb => !tb.2.isEmpty) ((t, bucket) :
            String × List (String × Node)) = true := by
          cases bucket with
          | nil => simp [lookupA] at h2
          | cons q r => simp [List.isEmpty]
        unfold cleanupClosure lookup2
        rw [lookupA_map_sort, lookupA_filter hnd _ hla hne]
        show lookupA (sortAList bucket) n = some b
        have hmb : (n, b) ∈ bucket := lookupA_mem h2
        have hmb2 : (n, b) ∈ sortAList bucket := (sortAList_perm bucket).mem_iff.mpr hmb
        exact lookupA_of_mem_nodup
          (sortAList_keys_nodup (hbk (t, bucket) (lookupA_mem hla))) hmb2

/-- A reference string transitively reachable from the extracted operations:
either it occurs directly in an extracted path's operations, or it occurs in
the source body that some reachable reference resolves to. -/
inductive ReachableRef (c : List (String × Node)) (extracted : List (String × Node)) :
    String → Prop
  | entry (pm : String × Node) (r : String) :
      pm ∈ extracted → r ∈ nodeRefs pm.2 → ReachableRef c extracted r
  | step (r t n : String) (b : Node) (r2 : String) :
      ReachableRef c extracted r → resolveRef c r = some (t, n, b) →
      r2 ∈ nodeRefs b → ReachableRef c extracted r2

/-- C1.  Closure completeness: every reference transitively reachable from
the extracted operations either is dangling in the document's components
section or resolves to a component stored in the output of
`collect_referenced_components`; and every reference inside any body stored
in the returned closure likewise resolves into the closure itself unless it
is dangling. -/
theorem closure_complete (api_spec : Node) (extracted : List (String × Node)) :
    (∀ r, ReachableRef (componentsOf api_spec) extracted r →
      resolveRef (componentsOf api_spec) r = none ∨
      ∃ t n b, resolveRef (componentsOf api_spec) r = some (t, n, b) ∧
        lookup2 (collect_referenced_components api_spec extracted) t n = some b) ∧
    (∀ t n b, lookup2 (collect_referenced_components api_spec extracted) t n = some b →
      ∀ r ∈ nodeRefs b,
        resolveRef (componentsOf api_spec) r = none ∨
        ∃ t2 n2 b2, resolveRef (componentsOf api_spec) r = some (t2, n2, b2) ∧
          lookup2 (collect_referenced_components api_spec extracted) t2 n2 = some b2) := by
  have hwf := collectRefsFuel_closWF (componentsOf api_spec) extracted
    (collectFuel (componentsOf api_spec) extracted)
  have hI2 := collectRefsFuel_I2 (componentsOf api_spec) extracted
    (collectFuel (componentsOf api_spec) extracted)
  have hsc := collectRefsFuel_scanned (componentsOf api_spec) extracted
  have hout : ∀ t n b,
      lookup2 (collect_referenced_components api_spec extracted) t n = some b ↔
      lookup2 (collectRefsFuel (componentsOf api_spec) extracted
        (collectFuel (componentsOf api_spec) extracted)).closure t n = some b :=
    fun t n b => lookup2_cleanup_iff hwf.1 hwf.2 t n b
  have hstore : ∀ r,
      r ∈ (collectRefsFuel (componentsOf api_spec) extracted
        (collectFuel (componentsOf api_spec) extracted)).processed →
      resolveRef (componentsOf api_spec) r = none ∨
      ∃ t n b, resolveRef (componentsOf api_spec) r = some (t, n, b) ∧
        lookup2 (collect_referenced_components api_spec extracted) t n = some b := by
    intro r hr
    cases hres : resolveRef (componentsOf api_spec) r with
    | none => exact Or.inl rfl
    | some tnb =>
        obtain ⟨t, n, b⟩ := tnb
        exact Or.inr ⟨t, n, b, rfl, (hout t n b).mpr (hI2 r hr t n b hres)⟩
  constructor
  · intro r hreach
    induction hreach with
    | entry pm r2 hpm hr2 =>
        exact hstore r2 (collectRefsFuel_entry_covers (componentsOf api_spec) extracted
          (collectFuel (componentsOf api_spec) extracted) pm hpm r2 hr2)
    | step r1 t n b r2 hreach1 hres hr2 ih =>
        rcases ih with hnone | ⟨t2, n2, b2, hres2, hstored⟩
        · rw [hres] at hnone
          exact Option.noConfusion hnone
        · rw [hres] at hres2
          simp only [Option.some.injEq, Prod.mk.injEq] at hres2
          obtain ⟨rfl, rfl, rfl⟩ := hres2
          have hpre := (hout t n b).mp hstored
          have hr2proc : r2 ∈ (collectRefsFuel (componentsOf api_spec) extracted
              (collectFuel (componentsOf api_spec) extracted)).processed := by
            rcases hsc t n b hpre r2 hr2 with hp | hp
            · exact hp
            · exact absurd hp (List.not_mem_nil r2)
          exact hstore r2 hr2proc
  · intro t n b hb r hr
    have hpre := (hout t n b).mp hb
    rcases hsc t n b hpre r hr with hp | hp
    · exact hstore r hp
    · exact absurd hp (List.not_mem_nil r)

theorem closure_complete_witness :
    resolveRef (componentsOf cyclicSpec) "#/components/schemas/A" = none ∨
    ∃ t n b,
      resolveRef (componentsOf cyclicSpec) "#/components/schemas/A" = some (t, n, b) ∧
      lookup2 (collect_referenced_components cyclicSpec cyclicEntry) t n = some b :=
  (closure_complete cyclicSpec cyclicEntry).1 "#/components/schemas/A"
    (ReachableRef.entry ("/p", Node.obj [("get", Node.obj
      [("$ref", Node.str "#/components/schemas/A")])]) "#/components/schemas/A"
      (by decide) (by decide))

/-! ## Store-level model of `remove_circular_references` (C6)

The pure embedding above cannot express mutation, so the deep-copy contract
of `remove_circular_references` — the caller's document is never mutated — is
stated over an explicit store: Python objects are cells at numeric addresses,
dicts and lists hold addresses of their values, assignment is a store write,
and `copy.deepcopy` builds a fresh isomorphic structure out of newly
allocated cells.  Addresses below the allocation watermark `h.next` are the
caller's objects; the theorem shows every such address holds the same cell
after the call. -/

/-- One Python object in the store: scalars are immediate, containers hold
the addresses of their elements. -/
inductive Cell where
  | str (s : String)
  | atom
  | obj (fields : List (String × Nat))
  | arr (items : List Nat)
deriving DecidableEq

/-- The store: allocated cells plus the next free address. -/
structure Heap where
  mem : List (Nat × Cell)
  next : Nat
deriving DecidableEq

/-- Association lookup for numeric addresses. -/
def lookupN {α : Type} : List (Nat × α) → Nat → Option α
  | [], _ => none
  | (k, v) :: rest, a => if k = a then some v else lookupN rest a

/-- Association update-in-place for numeric addresses. -/
def insertN {α : Type} : List (Nat × α) → Nat → α → List (Nat × α)
  | [], a, c => [(a, c)]
  | (k, v) :: rest, a, c =>
      if k = a then (k, c) :: rest else (k, v) :: insertN rest a c

def hGet (h : Heap) (a : Nat) : Option Cell := lookupN h.mem a

/-- In-place mutation of the object at address `a`. -/
def hSet (h : Heap) (a : Nat) (c : Cell) : Heap := ⟨insertN h.mem a c, h.next⟩

/-- Allocation of a fresh object at the watermark. -/
def hAlloc (h : Heap) (c : Cell) : Heap × Nat :=
  (⟨(h.next, c) :: h.mem, h.next + 1⟩, h.next)

/-- The child addresses held by a cell. -/
def cellAddrs : Cell → List Nat
  | Cell.str _ => []
  | Cell.atom => []
  | Cell.obj fields => fields.map Prod.snd
  | Cell.arr items => items

mutual

/-- Materialise a document value in the store, allocating a fresh cell for
every node (the building half of `copy.deepcopy`). -/
def allocNode : Heap → Node → Heap × Nat
  | h, Node.str s => hAlloc h (Cell.str s)
  | h, Node.atom => hAlloc h Cell.atom
  | h, Node.obj entries =>
      match allocFields h entries with
      | (h2, fields) => hAlloc h2 (Cell.obj fields)
  | h, Node.arr items =>
      match allocItems h items with
      | (h2, addrs) => hAlloc h2 (Cell.arr addrs)

def allocFields : Heap → List (String × Node) → Heap × List (String × Nat)
  | h, [] => (h, [])
  | h, (k, v) :: rest =>
      match allocNode h v with
      | (h2, a) =>
          match allocFields h2 rest with
          | (h3, rest2) => (h3, (k, a) :: rest2)

def allocItems : Heap → List Node → Heap × List Nat
  | h, [] => (h, [])
  | h, v :: rest =>
      match allocNode h v with
      | (h2, a) =>
          match allocItems h2 rest with
          | (h3, rest2) => (h3, a :: rest2)

end

mutual

/-- Read the document value rooted at an address (the traversal half of
`copy.deepcopy`); the fuel caps the depth, and `heapFuel` below suffices for
any acyclic store. -/
def readNode : Nat → Heap → Nat → Node
  | 0, _, _ => Node.atom
  | fuel + 1, h, a =>
      match hGet h a with
      | some (Cell.str s) => Node.str s
      | some Cell.atom => Node.atom
      | some (Cell.obj fields) => Node.obj (readFields fuel h fields)
      | some (Cell.arr items) => Node.arr (readItems fuel h items)
      | none => Node.atom

def readFields : Nat → Heap → List (String × Nat) → List (String × Node)
  | _, _, [] => []
  | fuel, h, (k, a) :: rest => (k, readNode fuel h a) :: readFields fuel h rest

def readItems : Nat → Heap → List Nat → List Node
  | _, _, [] => []
  | fuel, h, a :: rest => readNode fuel h a :: readItems fuel h rest

end

/-- Depth budget sufficient to read any acyclic store. -/
def heapFuel (h : Heap) : Nat := h.mem.length + 1

/-- `result = copy.deepcopy(spec)`: a fresh isomorphic structure built
entirely from newly allocated cells; the source cells are only read. -/
def deepcopyH (h : Heap) (a : Nat) : Heap × Nat :=
  allocNode h (readNode (heapFuel h) h a)

/-- One step of `remove_ref`'s navigation loop: a digit segment is converted
with `int(...)` and can only index a list cell, a non-digit segment can only
index a dict cell (mirroring `removeRefParts` above, at store level). -/
def navSeg (h : Heap) (cur : Nat) (key : String) : Option Nat :=
  if pyIsDigit key then
    match hGet h cur with
    | some (Cell.arr items) => items[pyToNat key]?
    | _ => none
  else
    match hGet h cur with
    | some (Cell.obj fields) => lookupA fields key
    | _ => none

/-- `for i in range(len(path_parts) - 1): ...` — navigate to the parent of
the reference. -/
def navParts (h : Heap) : Nat → List String → Option Nat
  | cur, [] => some cur
  | cur, key :: rest =>
      match navSeg h cur key with
      | some nxt => navParts h nxt rest
      | none => none

/-- The leaf test of `remove_ref` at store level: the candidate is a dict
whose `$ref` field holds the expected target reference string. -/
def leafMatchesH (h : Heap) (a : Nat) (dst : String) : Bool :=
  match hGet h a with
  | some (Cell.obj fields) =>
      match lookupA fields "$ref" with
      | some ra =>
          match hGet h ra with
          | some (Cell.str s) => s = "#/components/schemas/" ++ dst
          | _ => false
      | none => false
  | _ => false

/-- The final `current[last_key] = {...}` step: on a matching leaf, allocate
the placeholder object and write the parent cell in place so that the field
now holds the placeholder's address; `none` is any `return False` exit. -/
def writeLast (h : Heap) (cur : Nat) (lastKey dst : String) : Option Heap :=
  if pyIsDigit lastKey then
    match hGet h cur with
    | some (Cell.arr items) =>
        match items[pyToNat lastKey]? with
        | some child =>
            if leafMatchesH h child dst then
              match allocNode h (placeholderFor dst) with
              | (h2, pa) =>
                  some (hSet h2 cur (Cell.arr (items.set (pyToNat lastKey) pa)))
            else none
        | none => none
    | _ => none
  else
    match hGet h cur with
    | some (Cell.obj fields) =>
        match lookupA fields lastKey with
        | some child =>
            if leafMatchesH h child dst then
              match allocNode h (placeholderFor dst) with
              | (h2, pa) =>
                  some (hSet h2 cur (Cell.obj (insertA fields lastKey pa)))
            else none
        | none => none
    | _ => none

/-- `[x0, ..., xk] -> ([x0, ..., x(k-1)], xk)`: the navigated prefix and the
final segment of the split path. -/
def splitLast : List String → Option (List String × String)
  | [] => none
  | [x] => some ([], x)
  | x :: y :: rest =>
      match splitLast (y :: rest) with
      | some (init, l) => some (x :: init, l)
      | none => none

/-- `remove_ref(obj, src_schema, dst_schema, ref_path)` at store level:
`none` is `return False`, `some h2` is the mutated store after `return True`. -/
def remove_refH (h : Heap) (obj : Nat) (dst : String) (ref_path : String) :
    Option Heap :=
  if ref_path = "" then none
  else
    match splitLast (pyStripSplit ref_path) with
    | some (init, lastKey) =>
        match navParts h obj init with
        | some cur => writeLast h cur lastKey dst
        | none => none
    | none => none

/-- `result.get("components", {}).get("schemas", {})`, evaluated once on the
fresh copy: the address of the aliased schemas dict, if the chain exists (a
missing chain yields a detached `{}` in the source, and every subsequent
`schemas[src_schema]` raises before any mutation). -/
def schemasAddr (h : Heap) (res : Nat) : Option Nat :=
  match hGet h res with
  | some (Cell.obj m) =>
      match lookupA m "components" with
      | some ca =>
          match hGet h ca with
          | some (Cell.obj cm) => lookupA cm "schemas"
          | _ => none
      | none => none
  | _ => none

/-- One iteration of the `for location in locations` loop:
`schemas[src_schema]` is looked up on the current store (through the aliased
schemas dict captured before the loop) and the reference removed if it
matches.  A failing lookup, which raises in the source before any mutation
of that iteration, is modelled as a skip. -/
def locStep (saOpt : Option Nat) (src dst : String) (hh : Heap)
    (location : String) : Heap :=
  match saOpt with
  | some sa =>
      match hGet hh sa with
      | some (Cell.obj sm) =>
          match lookupA sm src with
          | some rootAddr =>
              match remove_refH hh rootAddr dst location with
              | some hh2 => hh2
              | none => hh
          | none => hh
      | _ => hh
  | none => hh

/-- One iteration of the `for point in breaking_points` loop. -/
def bpStep (saOpt : Option Nat) (hh : Heap) (point : BreakPoint) : Heap :=
  point.locations.foldl (locStep saOpt point.breakEdge.1 point.breakEdge.2) hh

/-- `remove_circular_references(spec, breaking_points)` at store level: deep
copy, capture the schemas dict's address once, then rewrite the copy in
place at every breaking point's recorded locations.  The audit log carries
no store effects and is omitted. -/
def remove_circular_references_heap (h : Heap) (spec : Nat)
    (bps : List BreakPoint) : Heap × Nat :=
  match deepcopyH h spec with
  | (h1, res) => (bps.foldl (bpStep (schemasAddr h1 res)) h1, res)

/-- Well-formed store: every allocated address is below the watermark. -/
def heapWF (h : Heap) : Prop := ∀ p ∈ h.mem, p.1 < h.next

/-- Every cell stored at an address at or above `w` holds only addresses at
or above `w`: the region above the watermark is closed under navigation. -/
def ClosedAbove (w : Nat) (h : Heap) : Prop :=
  ∀ a c, hGet h a = some c → w ≤ a → ∀ x ∈ cellAddrs c, w ≤ x

theorem lookupN_mem {α : Type} {m : List (Nat × α)} {a : Nat} {c : α}
    (h : lookupN m a = some c) : (a, c) ∈ m := by
  induction m with
  | nil => simp [lookupN] at h
  | cons p rest ih =>
      obtain ⟨k, v⟩ := p
      by_cases hk : k = a
      · have hv : v = c := by simpa [lookupN, hk] using h
        rw [← hk, ← hv]
        exact List.mem_cons_self _ _
      · have h2 : lookupN rest a = some c := by simpa [lookupN, hk] using h
        exact List.mem_cons_of_mem _ (ih h2)

theorem lookupN_insertN {α : Type} (t : Nat) (c : α) (a : Nat) :
    ∀ (m : List (Nat × α)),
      lookupN (insertN m t c) a = if t = a then some c else lookupN m a := by
  intro m
  induction m with
  | nil =>
      by_cases ht : t = a
      · simp [insertN, lookupN, ht]
      · simp [insertN, lookupN, ht]
  | cons p rest ih =>
      obtain ⟨k, v⟩ := p
      by_cases hk : k = t
      · rw [hk]
        by_cases ha : t = a
        · simp [insertN, lookupN, ha]
        · simp [insertN, lookupN, ha]
      · by_cases ha : k = a
        · have hta : ¬ t = a := by
            rw [← ha]
            intro he
            exact hk he.symm
          have hat : ¬ a = t := fun he => hta he.symm
          simp [insertN, lookupN, hk, ha, hta, hat]
        · simp [insertN, lookupN, hk, ha, ih]

theorem hGet_hSet (h : Heap) (t : Nat) (c : Cell) (a : Nat) :
    hGet (hSet h t c) a = if t = a then some c else hGet h a :=
  lookupN_insertN t c a h.mem

theorem hGet_hAlloc (h : Heap) (c : Cell) (a : Nat) :
    hGet (hAlloc h c).1 a = if h.next = a then some c else hGet h a := rfl

/-- In a well-formed store the region at or above the watermark is empty,
hence trivially closed. -/
theorem closed_of_wf {h : Heap} (hwf : heapWF h) : ClosedAbove h.next h := by
  intro a c hget ha x _
  have h1 := hwf (a, c) (lookupN_mem hget)
  omega

theorem closed_hAlloc {w : Nat} {h : Heap} {c : Cell} (hw : w ≤ h.next)
    (hc : ClosedAbove w h) (hcell : ∀ x ∈ cellAddrs c, w ≤ x) :
    ClosedAbove w (hAlloc h c).1 := by
  intro a c2 hget ha x hx
  rw [hGet_hAlloc] at hget
  by_cases he : h.next = a
  · rw [if_pos he] at hget
    have hce := Option.some.inj hget
    rw [← hce] at hx
    exact hcell x hx
  · rw [if_neg he] at hget
    exact hc a c2 hget ha x hx

theorem closed_hSet {w : Nat} {h : Heap} {t : Nat} {c : Cell}
    (hc : ClosedAbove w h) (hcell : ∀ x ∈ cellAddrs c, w ≤ x) :
    ClosedAbove w (hSet h t c) := by
  intro a c2 hget ha x hx
  rw [hGet_hSet] at hget
  by_cases he : t = a
  · rw [if_pos he] at hget
    have hce := Option.some.inj hget
    rw [← hce] at hx
    exact hcell x hx
  · rw [if_neg he] at hget
    exact hc a c2 hget ha x hx

/-- Allocation: the watermark rises, the fresh address lies in the new
region, pre-existing cells are untouched, closure is preserved if the new
cell only points into the closed region. -/
theorem hAlloc_spec {w : Nat} {h : Heap} {c : Cell} {hOut : Heap} {aOut : Nat}
    (hw : w ≤ h.next) (hc : ClosedAbove w h) (hcell : ∀ x ∈ cellAddrs c, w ≤ x)
    (heq : hAlloc h c = (hOut, aOut)) :
    h.next ≤ hOut.next ∧ h.next ≤ aOut ∧ aOut < hOut.next ∧
    (∀ b, b < h.next → hGet hOut b = hGet h b) ∧ ClosedAbove w hOut := by
  have h1 : hOut = (hAlloc h c).1 := by rw [heq]
  have h2 : aOut = (hAlloc h c).2 := by rw [heq]
  rw [h1, h2]
  refine ⟨?_, ?_, ?_, ?_, closed_hAlloc hw hc hcell⟩
  · show h.next ≤ h.next + 1
    omega
  · show h.next ≤ h.next
    omega
  · show h.next < h.next + 1
    omega
  · intro b hb
    rw [hGet_hAlloc, if_neg (by omega)]

mutual

/-- `allocNode` only allocates: the watermark rises, the returned root is
fresh, pre-existing cells are untouched, and closure above any lower
watermark is preserved. -/
theorem allocNode_spec (w : Nat) :
    ∀ (h : Heap) (v : Node) (hOut : Heap) (aOut : Nat), w ≤ h.next →
      ClosedAbove w h → allocNode h v = (hOut, aOut) →
      h.next ≤ hOut.next ∧ h.next ≤ aOut ∧ aOut < hOut.next ∧
      (∀ b, b < h.next → hGet hOut b = hGet h b) ∧ ClosedAbove w hOut
  | h, Node.str s, hOut, aOut, hw, hc, heq => by
      simp only [allocNode] at heq
      exact hAlloc_spec hw hc (by intro x hx; simp [cellAddrs] at hx) heq
  | h, Node.atom, hOut, aOut, hw, hc, heq => by
      simp only [allocNode] at heq
      exact hAlloc_spec hw hc (by intro x hx; simp [cellAddrs] at hx) heq
  | h, Node.obj entries, hOut, aOut, hw, hc, heq => by
      simp only [allocNode] at heq
      rcases haf : allocFields h entries with ⟨h2, fs⟩
      rw [haf] at heq
      obtain ⟨hn2, hfs, hframe2, hcl2⟩ := allocFields_spec w h entries h2 fs hw hc haf
      have hcell : ∀ x ∈ cellAddrs (Cell.obj fs), w ≤ x := by
        intro x hx
        simp only [cellAddrs] at hx
        rcases List.mem_map.mp hx with ⟨p, hp, hpx⟩
        have h4 := (hfs p hp).1
        omega
      obtain ⟨hn3, ha1, ha2, hframe3, hcl3⟩ :=
        hAlloc_spec (le_trans hw hn2) hcl2 hcell heq
      refine ⟨le_trans hn2 hn3, le_trans hn2 ha1, ha2, ?_, hcl3⟩
      intro b hb
      rw [hframe3 b (by omega), hframe2 b hb]
  | h, Node.arr items, hOut, aOut, hw, hc, heq => by
      simp only [allocNode] at heq
      rcases hai : allocItems h items with ⟨h2, as2⟩
      rw [hai] at heq
      obtain ⟨hn2, has, hframe2, hcl2⟩ := allocItems_spec w h items h2 as2 hw hc hai
      have hcell : ∀ x ∈ cellAddrs (Cell.arr as2), w ≤ x := by
        intro x hx
        simp only [cellAddrs] at hx
        have h4 := (has x hx).1
        omega
      obtain ⟨hn3, ha1, ha2, hframe3, hcl3⟩ :=
        hAlloc_spec (le_trans hw hn2) hcl2 hcell heq
      refine ⟨le_trans hn2 hn3, le_trans hn2 ha1, ha2, ?_, hcl3⟩
      intro b hb
      rw [hframe3 b (by omega), hframe2 b hb]
termination_by h v hOut aOut hw hc heq => sizeOf v

theorem allocFields_spec (w : Nat) :
    ∀ (h : Heap) (l : List (String × Node)) (hOut : Heap)
      (fs : List (String × Nat)), w ≤ h.next → ClosedAbove w h →
      allocFields h l = (hOut, fs) →
      h.next ≤ hOut.next ∧ (∀ p ∈ fs, h.next ≤ p.2 ∧ p.2 < hOut.next) ∧
      (∀ b, b < h.next → hGet hOut b = hGet h b) ∧ ClosedAbove w hOut
  | h, [], hOut, fs, hw, hc, heq => by
      simp only [allocFields] at heq
      obtain ⟨rfl, rfl⟩ := Prod.mk.injEq .. |>.mp heq.symm
      exact ⟨le_refl _, by intro p hp; simp at hp, fun b _ => rfl, hc⟩
  | h, (k, v) :: rest, hOut, fs, hw, hc, heq => by
      simp only [allocFields] at heq
      rcases han : allocNode h v with ⟨h2, a⟩
      rw [han] at heq
      rcases haf : allocFields h2 rest with ⟨h3, rest2⟩
      rw [haf] at heq
      obtain ⟨hn2, ha1, ha2, hframe2, hcl2⟩ := allocNode_spec w h v h2 a hw hc han
      obtain ⟨hn3, hfs3, hframe3, hcl3⟩ :=
        allocFields_spec w h2 rest h3 rest2 (le_trans hw hn2) hcl2 haf
      obtain ⟨e1, e2⟩ := Prod.mk.injEq .. |>.mp heq.symm
      subst e1
      subst e2
      refine ⟨le_trans hn2 hn3, ?_, ?_, hcl3⟩
      · intro p hp
        rcases List.mem_cons.mp hp with he | hm
        · rw [he]
          exact ⟨ha1, by omega⟩
        · have := hfs3 p hm
          exact ⟨by omega, this.2⟩
      · intro b hb
        rw [hframe3 b (by omega), hframe2 b hb]
termination_by h l hOut fs hw hc heq => sizeOf l

theorem allocItems_spec (w : Nat) :
    ∀ (h : Heap) (l : List Node) (hOut : Heap) (as2 : List Nat), w ≤ h.next →
      ClosedAbove w h → allocItems h l = (hOut, as2) →
      h.next ≤ hOut.next ∧ (∀ x ∈ as2, h.next ≤ x ∧ x < hOut.next) ∧
      (∀ b, b < h.next → hGet hOut b = hGet h b) ∧ ClosedAbove w hOut
  | h, [], hOut, as2, hw, hc, heq => by
      simp only [allocItems] at heq
      obtain ⟨rfl, rfl⟩ := Prod.mk.injEq .. |>.mp heq.symm
      exact ⟨le_refl _, by intro p hp; simp at hp, fun b _ => rfl, hc⟩
  | h, v :: rest, hOut, as2, hw, hc, heq => by
      simp only [allocItems] at heq
      rcases han : allocNode h v with ⟨h2, a⟩
      rw [han] at heq
      rcases hai : allocItems h2 rest with ⟨h3, rest2⟩
      rw [hai] at heq
      obtain ⟨hn2, ha1, ha2, hframe2, hcl2⟩ := allocNode_spec w h v h2 a hw hc han
      obtain ⟨hn3, has3, hframe3, hcl3⟩ :=
        allocItems_spec w h2 rest h3 rest2 (le_trans hw hn2) hcl2 hai
      obtain ⟨e1, e2⟩ := Prod.mk.injEq .. |>.mp heq.symm
      subst e1
      subst e2
      refine ⟨le_trans hn2 hn3, ?_, ?_, hcl3⟩
      · intro x hx
        rcases List.mem_cons.mp hx with he | hm
        · rw [he]
          exact ⟨ha1, by omega⟩
        · have := has3 x hm
          exact ⟨by omega, this.2⟩
      · intro b hb
        rw [hframe3 b (by omega), hframe2 b hb]
termination_by h l hOut as2 hw hc heq => sizeOf l

end

/-- Navigation from an address in the closed region stays in it. -/
theorem navSeg_fresh {w : Nat} {h : Heap} {cur nxt : Nat} {key : String}
    (hc : ClosedAbove w h) (hcur : w ≤ cur) (hn : navSeg h cur key = some nxt) :
    w ≤ nxt := by
  unfold navSeg at hn
  by_cases hd : pyIsDigit key = true
  · rw [if_pos hd] at hn
    cases hget : hGet h cur with
    | none =>
        rw [hget] at hn
        exact Option.noConfusion hn
    | some c =>
        rw [hget] at hn
        cases c with
        | arr items =>
            refine hc cur (Cell.arr items) hget hcur nxt ?_
            show nxt ∈ items
            have hn2 : items[pyToNat key]? = some nxt := hn
            exact List.getElem?_mem hn2
        | str s => exact Option.noConfusion hn
        | atom => exact Option.noConfusion hn
        | obj fields => exact Option.noConfusion hn
  · rw [if_neg hd] at hn
    cases hget : hGet h cur with
    | none =>
        rw [hget] at hn
        exact Option.noConfusion hn
    | some c =>
        rw [hget] at hn
        cases c with
        | obj fields =>
            refine hc cur (Cell.obj fields) hget hcur nxt ?_
            show nxt ∈ fields.map Prod.snd
            have hn2 : lookupA fields key = some nxt := hn
            exact List.mem_map.mpr ⟨(key, nxt), lookupA_mem hn2, rfl⟩
        | str s => exact Option.noConfusion hn
        | atom => exact Option.noConfusion hn
        | arr items => exact Option.noConfusion hn

theorem navParts_fresh {w : Nat} {h : Heap} (hc : ClosedAbove w h) :
    ∀ (parts : List String) (cur nxt : Nat), w ≤ cur →
      navParts h cur parts = some nxt → w ≤ nxt
  | [], cur, nxt, hcur, hn => by
      unfold navParts at hn
      rw [← Option.some.inj hn]
      exact hcur
  | key :: rest, cur, nxt, hcur, hn => by
      unfold navParts at hn
      cases hs : navSeg h cur key with
      | none =>
          rw [hs] at hn
          exact Option.noConfusion hn
      | some mid =>
          rw [hs] at hn
          exact navParts_fresh hc rest mid nxt (navSeg_fresh hc hcur hs) hn

/-- The final rewrite of `remove_ref` writes only at the navigated (fresh)
parent address and allocates only fresh cells: below the watermark the store
is untouched, and closure is preserved. -/
theorem writeLast_pres {w : Nat} {h h2 : Heap} {cur : Nat} {lastKey dst : String}
    (hw : w ≤ h.next) (hc : ClosedAbove w h) (hcur : w ≤ cur)
    (heq : writeLast h cur lastKey dst = some h2) :
    w ≤ h2.next ∧ (∀ b, b < w → hGet h2 b = hGet h b) ∧ ClosedAbove w h2 := by
  unfold writeLast at heq
  by_cases hd : pyIsDigit lastKey = true
  · rw [if_pos hd] at heq
    cases hget : hGet h cur with
    | none =>
        rw [hget] at heq
        exact Option.noConfusion heq
    | some c =>
        rw [hget] at heq
        cases c with
        | arr items =>
            dsimp only at heq
            cases hidx : items[pyToNat lastKey]? with
            | none =>
                rw [hidx] at heq
                exact Option.noConfusion heq
            | some child =>
                rw [hidx] at heq
                dsimp only at heq
                by_cases hlm : leafMatchesH h child dst = true
                · rw [if_pos hlm] at heq
                  rcases han : allocNode h (placeholderFor dst) with ⟨hA, pa⟩
                  rw [han] at heq
                  dsimp only at heq
                  obtain ⟨hnA, hpa1, hpa2, hframeA, hclA⟩ :=
                    allocNode_spec w h (placeholderFor dst) hA pa hw hc han
                  have he2 := Option.some.inj heq
                  subst he2
                  refine ⟨?_, ?_, ?_⟩
                  · show w ≤ hA.next
                    omega
                  · intro b hb
                    rw [hGet_hSet, if_neg (by omega), hframeA b (by omega)]
                  · refine closed_hSet hclA ?_
                    intro x hx
                    have hx2 : x ∈ items.set (pyToNat lastKey) pa := hx
                    rcases List.mem_or_eq_of_mem_set hx2 with hxi | hxe
                    · refine hc cur (Cell.arr items) hget hcur x ?_
                      show x ∈ items
                      exact hxi
                    · rw [hxe]
                      omega
                · rw [if_neg hlm] at heq
                  exact Option.noConfusion heq
        | str s => exact Option.noConfusion heq
        | atom => exact Option.noConfusion heq
        | obj fields => exact Option.noConfusion heq
  · rw [if_neg hd] at heq
    cases hget : hGet h cur with
    | none =>
        rw [hget] at heq
        exact Option.noConfusion heq
    | some c =>
        rw [hget] at heq
        cases c with
        | obj fields =>
            dsimp only at heq
            cases hlk : lookupA fields lastKey with
            | none =>
                rw [hlk] at heq
                exact Option.noConfusion heq
            | some child =>
                rw [hlk] at heq
                dsimp only at heq
                by_cases hlm : leafMatchesH h child dst = true
                · rw [if_pos hlm] at heq
                  rcases han : allocNode h (placeholderFor dst) with ⟨hA, pa⟩
                  rw [han] at heq
                  dsimp only at heq
                  obtain ⟨hnA, hpa1, hpa2, hframeA, hclA⟩ :=
                    allocNode_spec w h (placeholderFor dst) hA pa hw hc han
                  have he2 := Option.some.inj heq
                  subst he2
                  refine ⟨?_, ?_, ?_⟩
                  · show w ≤ hA.next
                    omega
                  · intro b hb
                    rw [hGet_hSet, if_neg (by omega), hframeA b (by omega)]
                  · refine closed_hSet hclA ?_
                    intro x hx
                    have hx2 : x ∈ (insertA fields lastKey pa).map Prod.snd := hx
                    rcases List.mem_map.mp hx2 with ⟨p, hp, hpx⟩
                    rcases mem_insertA hp with hpi | hpe
                    · refine hc cur (Cell.obj fields) hget hcur x ?_
                      show x ∈ fields.map Prod.snd
                      exact List.mem_map.mpr ⟨p, hpi, hpx⟩
                    · rw [← hpx, hpe]
                      omega
                · rw [if_neg hlm] at heq
                  exact Option.noConfusion heq
        | str s => exact Option.noConfusion heq
        | atom => exact Option.noConfusion heq
        | arr items => exact Option.noConfusion heq

/-- A successful `remove_ref` call rooted in the closed region leaves the
store below the watermark untouched and preserves closure. -/
theorem remove_refH_pres {w : Nat} {h h2 : Heap} {obj : Nat} {dst path : String}
    (hw : w ≤ h.next) (hc : ClosedAbove w h) (hobj : w ≤ obj)
    (heq : remove_refH h obj dst path = some h2) :
    w ≤ h2.next ∧ (∀ b, b < w → hGet h2 b = hGet h b) ∧ ClosedAbove w h2 := by
  unfold remove_refH at heq
  by_cases hp : path = ""
  · rw [if_pos hp] at heq
    exact Option.noConfusion heq
  · rw [if_neg hp] at heq
    cases hsl : splitLast (pyStripSplit path) with
    | none =>
        rw [hsl] at heq
        exact Option.noConfusion heq
    | some il =>
        obtain ⟨init, lastKey⟩ := il
        rw [hsl] at heq
        dsimp only at heq
        cases hnav : navParts h obj init with
        | none =>
            rw [hnav] at heq
            exact Option.noConfusion heq
        | some cur =>
            rw [hnav] at heq
            dsimp only at heq
            exact writeLast_pres hw hc (navParts_fresh hc init obj cur hobj hnav) heq

/-- The schemas dict of a freshly copied document lives in the fresh region. -/
theorem schemasAddr_fresh {w : Nat} {h : Heap} {res sa : Nat}
    (hc : ClosedAbove w h) (hres : w ≤ res) (heq : schemasAddr h res = some sa) :
    w ≤ sa := by
  unfold schemasAddr at heq
  cases hg1 : hGet h res with
  | none =>
      rw [hg1] at heq
      exact Option.noConfusion heq
  | some c =>
      rw [hg1] at heq
      cases c with
      | obj m =>
          dsimp only at heq
          cases hca : lookupA m "components" with
          | none =>
              rw [hca] at heq
              exact Option.noConfusion heq
          | some ca =>
              rw [hca] at heq
              dsimp only at heq
              have hcaw : w ≤ ca := by
                refine hc res (Cell.obj m) hg1 hres ca ?_
                show ca ∈ m.map Prod.snd
                exact List.mem_map.mpr ⟨("components", ca), lookupA_mem hca, rfl⟩
              cases hg2 : hGet h ca with
              | none =>
                  rw [hg2] at heq
                  exact Option.noConfusion heq
              | some c2 =>
                  rw [hg2] at heq
                  cases c2 with
                  | obj cm =>
                      dsimp only at heq
                      refine hc ca (Cell.obj cm) hg2 hcaw sa ?_
                      show sa ∈ cm.map Prod.snd
                      exact List.mem_map.mpr ⟨("schemas", sa), lookupA_mem heq, rfl⟩
                  | str s => exact Option.noConfusion heq
                  | atom => exact Option.noConfusion heq
                  | arr items => exact Option.noConfusion heq
      | str s => exact Option.noConfusion heq
      | atom => exact Option.noConfusion heq
      | arr items => exact Option.noConfusion heq

/-- Fold preservation of a store invariant. -/
theorem foldl_heap_inv {α : Type} (Inv : Heap → Prop) (f : Heap → α → Heap)
    (hstep : ∀ hh x, Inv hh → Inv (f hh x)) :
    ∀ (l : List α) (hh : Heap), Inv hh → Inv (l.foldl f hh) := by
  intro l
  induction l with
  | nil => intro hh hi; exact hi
  | cons x rest ih =>
      intro hh hi
      rw [List.foldl_cons]
      exact ih _ (hstep hh x hi)

/-- One location-loop iteration preserves the store invariant: watermark
respected, cells below the original watermark identical to the caller's, and
the fresh region closed under navigation. -/
theorem locStep_inv {w : Nat} {h0 : Heap} (saOpt : Option Nat)
    (hsa : ∀ sa, saOpt = some sa → w ≤ sa) (src dst : String)
    (hh : Heap) (location : String)
    (hi : w ≤ hh.next ∧ (∀ b, b < w → hGet hh b = hGet h0 b) ∧ ClosedAbove w hh) :
    w ≤ (locStep saOpt src dst hh location).next ∧
    (∀ b, b < w → hGet (locStep saOpt src dst hh location) b = hGet h0 b) ∧
    ClosedAbove w (locStep saOpt src dst hh location) := by
  obtain ⟨hn, hframe, hcl⟩ := hi
  unfold locStep
  cases hso : saOpt with
  | none => exact ⟨hn, hframe, hcl⟩
  | some sa =>
      dsimp only
      cases hg : hGet hh sa with
      | none => exact ⟨hn, hframe, hcl⟩
      | some c =>
          cases c with
          | obj sm =>
              dsimp only
              cases hlk : lookupA sm src with
              | none => exact ⟨hn, hframe, hcl⟩
              | some rootAddr =>
                  dsimp only
                  have hroot : w ≤ rootAddr := by
                    refine hcl sa (Cell.obj sm) hg (hsa sa hso) rootAddr ?_
                    show rootAddr ∈ sm.map Prod.snd
                    exact List.mem_map.mpr ⟨(src, rootAddr), lookupA_mem hlk, rfl⟩
                  cases hrr : remove_refH hh rootAddr dst location with
                  | none => exact ⟨hn, hframe, hcl⟩
                  | some hh2 =>
                      dsimp only
                      obtain ⟨hn2, hframe2, hcl2⟩ := remove_refH_pres hn hcl hroot hrr
                      exact ⟨hn2, fun b hb => by rw [hframe2 b hb, hframe b hb], hcl2⟩
          | str s => exact ⟨hn, hframe, hcl⟩
          | atom => exact ⟨hn, hframe, hcl⟩
          | arr items => exact ⟨hn, hframe, hcl⟩

/-- C6.  Cycle breaking never mutates the caller's document: in the store
model, `remove_circular_references` performs all its rewrites on freshly
allocated cells (the deep copy and the placeholder objects), so for every
input store and every list of breaking points, every address allocated
before the call — in particular every cell of the caller's document — holds
exactly the same cell afterwards, and the returned document root is a fresh
address disjoint from the caller's objects. -/
theorem remove_circular_references_no_mutation (h : Heap) (spec : Nat)
    (bps : List BreakPoint) (hwf : heapWF h) :
    (∀ a, a < h.next →
      hGet (remove_circular_references_heap h spec bps).1 a = hGet h a) ∧
    h.next ≤ (remove_circular_references_heap h spec bps).2 := by
  unfold remove_circular_references_heap deepcopyH
  rcases han : allocNode h (readNode (heapFuel h) h spec) with ⟨h1, res⟩
  dsimp only
  obtain ⟨hn1, hres1, hres2, hframe1, hcl1⟩ :=
    allocNode_spec h.next h (readNode (heapFuel h) h spec) h1 res (le_refl _)
      (closed_of_wf hwf) han
  have hsa : ∀ sa, schemasAddr h1 res = some sa → h.next ≤ sa :=
    fun sa h2 => schemasAddr_fresh hcl1 hres1 h2
  have hbp : ∀ (hh : Heap) (point : BreakPoint),
      (h.next ≤ hh.next ∧ (∀ b, b < h.next → hGet hh b = hGet h b) ∧
        ClosedAbove h.next hh) →
      (h.next ≤ (bpStep (schemasAddr h1 res) hh point).next ∧
       (∀ b, b < h.next →
         hGet (bpStep (schemasAddr h1 res) hh point) b = hGet h b) ∧
       ClosedAbove h.next (bpStep (schemasAddr h1 res) hh point)) := by
    intro hh point hi
    unfold bpStep
    exact foldl_heap_inv
      (fun hh => h.next ≤ hh.next ∧ (∀ b, b < h.next → hGet hh b = hGet h b) ∧
        ClosedAbove h.next hh)
      (locStep (schemasAddr h1 res) point.breakEdge.1 point.breakEdge.2)
      (fun hh2 loc hi2 =>
        locStep_inv (schemasAddr h1 res) hsa point.breakEdge.1 point.breakEdge.2
          hh2 loc hi2)
      point.locations hh hi
  have hInv := foldl_heap_inv
    (fun hh => h.next ≤ hh.next ∧ (∀ b, b < h.next → hGet hh b = hGet h b) ∧
      ClosedAbove h.next hh)
    (bpStep (schemasAddr h1 res)) hbp bps h1 ⟨hn1, hframe1, hcl1⟩
  exact ⟨fun a ha => hInv.2.1 a ha, hres1⟩

/-- A six-cell store holding one document
`{"components": {"schemas": {"A": {"b": {"$ref": ".../B"}}}}}` rooted at
address 0, with watermark 6. -/
def hW : Heap :=
  ⟨[(0, Cell.obj [("components", 1)]),
    (1, Cell.obj [("schemas", 2)]),
    (2, Cell.obj [("A", 3)]),
    (3, Cell.obj [("b", 4)]),
    (4, Cell.obj [("$ref", 5)]),
    (5, Cell.str "#/components/schemas/B")], 6⟩

/-- A breaking point that actually rewrites the copy of that document. -/
def bpsW : List BreakPoint :=
  [⟨["A", "B", "A"], ("A", "B"), 1, ["b"]⟩]

theorem remove_circular_references_no_mutation_witness :
    (∀ p ∈ hW.mem, p.1 < hW.next) ∧
    hGet (remove_circular_references_heap hW 0 bpsW).1 4 = hGet hW 4 :=
  ⟨by decide,
   (remove_circular_references_no_mutation hW 0 bpsW
     (by unfold heapWF; decide)).1 4 (by decide)⟩

end ApiSpecPruner
